import Mathlib

/-!
# Verification of openevolve's mutation pipeline and scheduler

Shallow embedding of the parts of the `openevolve` repository that the
frozen claims concern:

* `openevolve/utils/code_utils.py` — edit extraction (`extract_diffs`),
  the edit applicator (`apply_diffs_to_code`, `apply_diff`), the
  full-rewrite parser (`parse_full_rewrite` back-compat shim) and
  `calculate_edit_distance`;
* `openevolve/utils/patch_sanitizer.py` — `extract_raw_patch`;
* `openevolve/process_parallel.py` — the worker body
  (`_run_iteration_worker`, after the model call) and the scheduler
  (`ProcessParallelController.run_evolution` pre-fill,
  `_submit_iteration`).

Python strings are modelled as `List Char` (`PyStr`).  Python's regexes
are hand-compiled to executable Lean functions; each definition carries
a comment naming the regex it implements.  Whitespace is the ASCII
whitespace set (the repository's inputs of interest are ASCII; the
` `/`−`-style characters that the sanitizer's normalisation
pass rewrites are carried through the normalisation definitions
explicitly).
-/

set_option maxRecDepth 10000

namespace OpenEvolve

/-- Python strings, modelled as lists of characters. -/
abbrev PyStr := List Char

/-- ASCII whitespace, as matched by Python's `str.strip` / `re` `\s`
(restricted to the ASCII range: space, tab, newline, carriage return,
vertical tab, form feed). -/
def isPyWs (c : Char) : Bool :=
  c = ' ' || c = '\t' || c = '\n' || c = '\x0d' || c = '\x0b' || c = '\x0c'

/-- `str.lstrip()` (ASCII whitespace). -/
def pyLStrip (s : PyStr) : PyStr := s.dropWhile isPyWs

/-- `str.rstrip()` (ASCII whitespace). -/
def pyRStrip (s : PyStr) : PyStr := (s.reverse.dropWhile isPyWs).reverse

/-- `str.strip()` (ASCII whitespace). -/
def pyStrip (s : PyStr) : PyStr := pyRStrip (pyLStrip s)

/-- `str.upper()` (ASCII letters; the inputs the claims touch are ASCII). -/
def pyUpper (s : PyStr) : PyStr := s.map Char.toUpper

/-- `a.startswith(b)`. -/
def pyStartsWith (s pre : PyStr) : Bool := pre.isPrefixOf s

/-- `b in a` — substring containment, `needle` occurring anywhere in `hay`. -/
def pyContains (hay needle : PyStr) : Bool :=
  match hay with
  | [] => needle.isPrefixOf ([] : PyStr)
  | _ :: t => needle.isPrefixOf hay || pyContains t needle

/-- `s.split("\n")`. -/
def pySplitNl (s : PyStr) : List PyStr :=
  match s with
  | [] => [[]]
  | c :: t =>
      let rest := pySplitNl t
      if c = '\n' then [] :: rest
      else match rest with
           | [] => [[c]]
           | l :: ls => (c :: l) :: ls

/-- `"\n".join(lines)`. -/
def pyJoinNl (ls : List PyStr) : PyStr :=
  match ls with
  | [] => []
  | [l] => l
  | l :: ls => l ++ '\n' :: pyJoinNl ls

/-! ## `openevolve/utils/code_utils.py` — the edit applicator

`DiffBlock`, `_ws_regex_escape`, `_try_apply_exact`, `_try_apply_ws_tolerant`
and `apply_diffs_to_code` (file `src/build/lib/openevolve/utils/code_utils.py`,
lines 30–209), plus the back-compat wrapper `apply_diff` (lines 273–279). -/

/-- `DiffBlock` dataclass: one SEARCH/REPLACE edit.  (The applicator also
accepts plain dicts and normalises them to `DiffBlock` with the same three
fields; the embedding works with the normalised form.) -/
structure DiffBlock where
  search : PyStr
  replace : PyStr
  target_file : Option PyStr := none
deriving Repr, DecidableEq

/-- `haystack.replace(needle, repl, 1)`: replace the first (leftmost)
occurrence of `needle`; with an empty `needle` Python inserts `repl` in
front of the string. -/
def pyReplaceOnce (hay needle repl : PyStr) : PyStr :=
  if needle.isPrefixOf hay then repl ++ hay.drop needle.length
  else
    match hay with
    | [] => hay
    | c :: t => c :: pyReplaceOnce t needle repl

/-- `_try_apply_exact`: exact substring match, replace first occurrence. -/
def tryApplyExact (haystack needle repl : PyStr) : PyStr × Bool :=
  if pyContains haystack needle then (pyReplaceOnce haystack needle repl, true)
  else (haystack, false)

/-- `re.split(r"\s+", s.strip())` as used by `_ws_regex_escape`: the
maximal non-whitespace runs of the stripped text.  Python returns `[""]`
(a single empty token) when the stripped text is empty, which compiles to
the empty pattern; we keep that representation. -/
def wsRunsAux : PyStr → List PyStr
  | [] => []
  | c :: t =>
      let rest := wsRunsAux t
      if isPyWs c then rest
      else
        match t with
        | [] => [[c]]
        | d :: _ =>
            if isPyWs d then [c] :: rest
            else
              match rest with
              | [] => [[c]]
              | r :: rs => (c :: r) :: rs

/-- The token list of the compiled whitespace-tolerant pattern
(`_ws_regex_escape`): literal tokens to be joined by `\s+`. -/
def wsRegexParts (s : PyStr) : List PyStr :=
  let stripped := pyStrip s
  if stripped = [] then [[]] else wsRunsAux stripped

/-- Match the compiled pattern `tok₀ \s+ tok₁ \s+ …` at the *front* of
`hay`, returning the match length.  Every token produced by
`wsRegexParts` on a non-blank search text is non-empty and starts with a
non-whitespace character, so the greedy `\s+` with backtracking is
deterministic: it must consume exactly the maximal whitespace run
(backtracking to a shorter run would place the next token's
non-whitespace first character on a whitespace character). -/
def wsMatchAt : List PyStr → PyStr → Option Nat
  | [], _ => some 0
  | [t], hay => if t.isPrefixOf hay then some t.length else none
  | t :: t' :: ts, hay =>
      if t.isPrefixOf hay then
        let rest := hay.drop t.length
        let w := (rest.takeWhile isPyWs).length
        if w = 0 then none
        else
          match wsMatchAt (t' :: ts) (rest.drop w) with
          | some k => some (t.length + w + k)
          | none => none
      else none

/-- `pattern.search(haystack)`: leftmost match, as (position, length). -/
def wsSearchFrom (toks : List PyStr) : PyStr → Nat → Option (Nat × Nat)
  | hay, i =>
      match wsMatchAt toks hay with
      | some k => some (i, k)
      | none =>
          match hay with
          | [] => none
          | _ :: t => wsSearchFrom toks t (i + 1)

def wsSearch (toks : List PyStr) (hay : PyStr) : Option (Nat × Nat) :=
  wsSearchFrom toks hay 0

/-- Errors that reach the worker's blanket `except Exception` boundary. -/
abbrev PyErr := PyStr

instance {ε α : Type} [DecidableEq ε] [DecidableEq α] : DecidableEq (Except ε α)
  | .ok a, .ok b => if h : a = b then .isTrue (by rw [h]) else .isFalse (by simp [h])
  | .ok _, .error _ => .isFalse (by simp)
  | .error _, .ok _ => .isFalse (by simp)
  | .error e, .error f => if h : e = f then .isTrue (by rw [h]) else .isFalse (by simp [h])

def isOctalDigit (c : Char) : Bool := '0' ≤ c ∧ c ≤ '7'

/-- CPython's processing of the replacement template in `re.sub`
(`sre_parse.parse_template`): `\\`, `\n`, `\t`, `\r`, `\f`, `\v`, `\a`,
`\b` are control characters, `\0` starts an octal escape, `\g` and
digit escapes are group references (errors here, as the compiled
pattern has no groups), any other escaped ASCII letter is a "bad
escape" error, and an escaped non-letter keeps both characters. -/
def expandTemplate : PyStr → Except PyErr PyStr
  | [] => .ok []
  | ['\\'] => .error "bad escape (end of pattern)".toList
  | '\\' :: c :: t =>
      if c = '\\' then (expandTemplate t).map ('\\' :: ·)
      else if c = 'n' then (expandTemplate t).map ('\n' :: ·)
      else if c = 't' then (expandTemplate t).map ('\t' :: ·)
      else if c = 'r' then (expandTemplate t).map ('\x0d' :: ·)
      else if c = 'f' then (expandTemplate t).map ('\x0c' :: ·)
      else if c = 'v' then (expandTemplate t).map ('\x0b' :: ·)
      else if c = 'a' then (expandTemplate t).map ('\x07' :: ·)
      else if c = 'b' then (expandTemplate t).map ('\x08' :: ·)
      else if c = '0' then
        -- `\0` takes up to two further octal digits
        match t with
        | [] => .ok [Char.ofNat 0]
        | d1 :: t1 =>
            if isOctalDigit d1 then
              match t1 with
              | d2 :: t2 =>
                  if isOctalDigit d2 then
                    (expandTemplate t2).map
                      (Char.ofNat ((d1.toNat - 48) * 8 + (d2.toNat - 48)) :: ·)
                  else (expandTemplate (d2 :: t2)).map (Char.ofNat (d1.toNat - 48) :: ·)
              | [] => .ok [Char.ofNat (d1.toNat - 48)]
            else (expandTemplate (d1 :: t1)).map (Char.ofNat 0 :: ·)
      else if c = 'g' then .error "missing <".toList
      else if c.isDigit then .error "invalid group reference".toList
      else if c.isAlpha then .error "bad escape".toList
      else (expandTemplate t).map (fun r => '\\' :: c :: r)
  | c :: t => (expandTemplate t).map (c :: ·)

/-- `_try_apply_ws_tolerant`: compile the whitespace-tolerant pattern,
search once, and if found substitute once (`pattern.sub(repl, haystack,
count=1)`); the replacement text goes through template expansion, whose
errors propagate (the Python function does not catch them). -/
def tryApplyWsTolerant (haystack needle repl : PyStr) :
    Except PyErr (PyStr × Bool) :=
  let toks := wsRegexParts needle
  match wsSearch toks haystack with
  | none => .ok (haystack, false)
  | some (i, k) =>
      (expandTemplate repl).map fun r =>
        (haystack.take i ++ r ++ haystack.drop (i + k), true)

/-- The loop body of `apply_diffs_to_code` with its `applied` / `skipped`
accumulators (lines 158–209): empty search ⇒ skip; else exact strategy;
else whitespace-tolerant strategy; else skip. -/
def applyDiffsGo (code : PyStr) (applied skipped : Nat) :
    List DiffBlock → Except PyErr (PyStr × Nat × Nat)
  | [] => .ok (code, applied, skipped)
  | db :: rest =>
      if db.search = [] then applyDiffsGo code applied (skipped + 1) rest
      else
        match tryApplyExact code db.search db.replace with
        | (updated, true) => applyDiffsGo updated (applied + 1) skipped rest
        | (_, false) =>
            match tryApplyWsTolerant code db.search db.replace with
            | .error e => .error e
            | .ok (updated, true) => applyDiffsGo updated (applied + 1) skipped rest
            | .ok (_, false) => applyDiffsGo code applied (skipped + 1) rest

/-- `apply_diffs_to_code(code, diff_blocks)`: final source and the
`{"applied_count", "skipped_count", "total"}` stats. -/
def apply_diffs_to_code (code : PyStr) (blocks : List DiffBlock) :
    Except PyErr (PyStr × Nat × Nat × Nat) :=
  (applyDiffsGo code 0 0 blocks).map fun (c, a, k) => (c, a, k, a + k)

/-- `apply_diff(code, search_text, replace_text)` (line 273): the
backward-compatible singular apply wrapper.  NOTE its arity: three
positional parameters. -/
def apply_diff (code search_text replace_text : PyStr) :
    Except PyErr (PyStr × Bool) :=
  (apply_diffs_to_code code [⟨search_text, replace_text, none⟩]).map
    fun (c, a, _, _) => (c, a ≠ 0)

/-! ### Lemmas about the applicator -/

theorem pyContains_cons_of_tail {t : PyStr} (c : Char) {n : PyStr}
    (h : pyContains t n = true) : pyContains (c :: t) n = true := by
  simp [pyContains, h]

/-- `haystack.replace(needle, repl, 1)` performs exactly one contiguous
substitution, at the first occurrence of the needle. -/
theorem pyReplaceOnce_spec (s n repl : PyStr) (h : pyContains s n = true) :
    ∃ p suf, s = p ++ n ++ suf ∧
      pyReplaceOnce s n repl = p ++ repl ++ suf ∧
      ∀ q r, s = q ++ n ++ r → p.length ≤ q.length := by
  induction s with
  | nil =>
      have hn : n = [] := by
        cases n with
        | nil => rfl
        | cons a b => simp [pyContains, List.isPrefixOf] at h
      subst hn
      exact ⟨[], [], rfl, by simp [pyReplaceOnce, List.isPrefixOf], fun _ _ _ => Nat.zero_le _⟩
  | cons c t ih =>
      by_cases hp : n.isPrefixOf (c :: t)
      · obtain ⟨suf, hsuf⟩ := List.isPrefixOf_iff_prefix.mp hp
        refine ⟨[], suf, by simp [hsuf], ?_, fun _ _ _ => Nat.zero_le _⟩
        have hdrop : (c :: t).drop n.length = suf := by
          rw [← hsuf]; exact List.drop_left n suf
        simp [pyReplaceOnce, hp, hdrop]
      · have ht : pyContains t n = true := by
          have : pyContains (c :: t) n = (n.isPrefixOf (c :: t) || pyContains t n) := rfl
          rw [this] at h; simpa [hp] using h
        obtain ⟨p, suf, h1, h2, h3⟩ := ih ht
        refine ⟨c :: p, suf, by simp [h1], ?_, ?_⟩
        · simp [pyReplaceOnce, hp, h2]
        · intro q r hqr
          cases q with
          | nil =>
              exfalso
              apply hp
              rw [List.isPrefixOf_iff_prefix]
              exact ⟨r, by simpa using hqr.symm⟩
          | cons d q' =>
              have hdq : t = q' ++ n ++ r := by
                have := hqr
                simp only [List.cons_append] at this
                exact (List.cons.injEq _ _ _ _ ▸ this).2
              have := h3 q' r hdq
              simp only [List.length_cons]
              omega

/-- A match of the whitespace-tolerant pattern never extends past the end
of the haystack. -/
theorem wsMatchAt_le (toks : List PyStr) :
    ∀ hay n, wsMatchAt toks hay = some n → n ≤ hay.length := by
  induction toks with
  | nil => intro hay n h; simp [wsMatchAt] at h; omega
  | cons t tail ih =>
      intro hay n h
      cases tail with
      | nil =>
          simp only [wsMatchAt] at h
          by_cases hp : t.isPrefixOf hay
          · simp [hp] at h
            have := (List.isPrefixOf_iff_prefix.mp hp).length_le
            omega
          · simp [hp] at h
      | cons t' ts =>
          simp only [wsMatchAt] at h
          by_cases hp : t.isPrefixOf hay
          · simp only [hp, if_true] at h
            have hlen := (List.isPrefixOf_iff_prefix.mp hp).length_le
            by_cases hw : ((hay.drop t.length).takeWhile isPyWs).length = 0
            · simp [hw] at h
            · simp only [hw, if_false] at h
              cases hm : wsMatchAt (t' :: ts) ((hay.drop t.length).drop
                  ((hay.drop t.length).takeWhile isPyWs).length) with
              | none => rw [hm] at h; simp at h
              | some k =>
                  rw [hm] at h
                  simp only [Option.some.injEq] at h
                  have hk := ih _ k hm
                  have htw : ((hay.drop t.length).takeWhile isPyWs).length ≤
                      (hay.drop t.length).length := (List.takeWhile_prefix _).length_le
                  simp only [List.length_drop] at hk htw ⊢
                  omega
          · simp [hp] at h

/-- `pattern.search` returns a span that lies inside the haystack. -/
theorem wsSearchFrom_le (toks : List PyStr) :
    ∀ hay i j n, wsSearchFrom toks hay i = some (j, n) →
      i ≤ j ∧ (j - i) + n ≤ hay.length := by
  intro hay
  induction hay with
  | nil =>
      intro i j n h
      simp only [wsSearchFrom] at h
      cases hm : wsMatchAt toks [] with
      | none => rw [hm] at h; simp at h
      | some k =>
          rw [hm] at h
          simp only [Option.some.injEq, Prod.mk.injEq] at h
          have hb := wsMatchAt_le toks [] k hm
          simp only [List.length_nil] at hb ⊢
          omega
  | cons c t ih =>
      intro i j n h
      simp only [wsSearchFrom] at h
      cases hm : wsMatchAt toks (c :: t) with
      | some k =>
          rw [hm] at h
          simp only [Option.some.injEq, Prod.mk.injEq] at h
          have hb := wsMatchAt_le toks (c :: t) k hm
          simp only [List.length_cons] at hb ⊢
          omega
      | none =>
          rw [hm] at h
          have := ih (i + 1) j n h
          simp only [List.length_cons]
          omega

theorem wsSearch_le (toks : List PyStr) (hay : PyStr) (i n : Nat)
    (h : wsSearch toks hay = some (i, n)) : i + n ≤ hay.length := by
  have := wsSearchFrom_le toks hay 0 i n h
  omega

/-- Shifting the `skipped` accumulator commutes with the rest of the loop. -/
theorem applyDiffsGo_skip_succ (l : List DiffBlock) :
    ∀ s a k, applyDiffsGo s a (k + 1) l =
      (applyDiffsGo s a k l).map (fun x => (x.1, x.2.1, x.2.2 + 1)) := by
  induction l with
  | nil => intro s a k; rfl
  | cons db rest ih =>
      intro s a k
      simp only [applyDiffsGo]
      by_cases hs : db.search = []
      · simp [hs, ih]
      · simp only [hs, if_false]
        rcases hx : tryApplyExact s db.search db.replace with ⟨u, b⟩
        cases b
        · rcases hw : tryApplyWsTolerant s db.search db.replace with e | ⟨u2, b2⟩
          · simp [hw, Except.map]
          · cases b2 <;> simp [hw, ih]
        · simp [ih]

/-- Inserting an empty-search edit anywhere in the list only bumps the
`skipped` counter; the evolving source and the other edits are untouched. -/
theorem applyDiffsGo_empty_middle (e : DiffBlock) (he : e.search = [])
    (post : List DiffBlock) :
    ∀ pre s a k, applyDiffsGo s a k (pre ++ e :: post) =
      (applyDiffsGo s a k (pre ++ post)).map (fun x => (x.1, x.2.1, x.2.2 + 1)) := by
  intro pre
  induction pre with
  | nil =>
      intro s a k
      simp only [List.nil_append, applyDiffsGo, he, if_true]
      exact applyDiffsGo_skip_succ post s a k
  | cons d pre' ih =>
      intro s a k
      simp only [List.cons_append, applyDiffsGo]
      by_cases hs : d.search = []
      · simp [hs, ih]
      · simp only [hs, if_false]
        rcases hx : tryApplyExact s d.search d.replace with ⟨u, b⟩
        cases b
        · rcases hw : tryApplyWsTolerant s d.search d.replace with e' | ⟨u2, b2⟩
          · simp [hw, Except.map]
          · cases b2 <;> simp [hw, ih]
        · simp [ih]

/-- C7: for every edit list given to `apply_diffs_to_code`, an edit whose
search text is empty is always counted as skipped and leaves the working
source exactly unchanged for that edit (no strategy is attempted for it),
and processing of the remaining edits continues: the run with the edit
present equals the run with it removed, except that `skipped_count` and
`total` are one higher. -/
theorem apply_diffs_empty_search_skipped (code : PyStr)
    (pre post : List DiffBlock) (e : DiffBlock) (he : e.search = []) :
    apply_diffs_to_code code (pre ++ e :: post) =
      (apply_diffs_to_code code (pre ++ post)).map
        (fun x => (x.1, x.2.1, x.2.2.1 + 1, x.2.2.2 + 1)) := by
  unfold apply_diffs_to_code
  rw [applyDiffsGo_empty_middle e he post pre code 0 0]
  cases applyDiffsGo code 0 0 (pre ++ post) <;> rfl

/-- Witness for C7 at a concrete input. -/
theorem apply_diffs_empty_search_skipped_witness :
    apply_diffs_to_code "xy".toList
        ([⟨"q".toList, "Q".toList, none⟩] ++
          (⟨[], "Z".toList, none⟩ : DiffBlock) :: [⟨"x".toList, "A".toList, none⟩]) =
      (apply_diffs_to_code "xy".toList
          ([⟨"q".toList, "Q".toList, none⟩] ++ [⟨"x".toList, "A".toList, none⟩])).map
        (fun x => (x.1, x.2.1, x.2.2.1 + 1, x.2.2.2 + 1)) :=
  apply_diffs_empty_search_skipped "xy".toList
    [⟨"q".toList, "Q".toList, none⟩] [⟨"x".toList, "A".toList, none⟩]
    ⟨[], "Z".toList, none⟩ rfl

/-- C6: `apply_diffs_to_code`'s loop processes edits strictly in input
order and each edit performs at most one substitution on the current
source: when the exact strategy matches, the loop continues on
`pyReplaceOnce`, which replaces exactly the first occurrence of the
search text; the whitespace-tolerant strategy is consulted only when
exact matching failed, and then substitutes at most once (one contiguous
span `[i, i+n)` of the current source is replaced), or else the edit is
skipped with the source unchanged. -/
theorem apply_diffs_in_order_single_substitution
    (s : PyStr) (a k : Nat) (e : DiffBlock) (rest : List DiffBlock)
    (hne : e.search ≠ []) :
    (pyContains s e.search = true →
      applyDiffsGo s a k (e :: rest) =
        applyDiffsGo (pyReplaceOnce s e.search e.replace) (a + 1) k rest ∧
      ∃ p suf, s = p ++ e.search ++ suf ∧
        pyReplaceOnce s e.search e.replace = p ++ e.replace ++ suf ∧
        ∀ q r, s = q ++ e.search ++ r → p.length ≤ q.length) ∧
    (pyContains s e.search = false →
      (∀ i n, wsSearch (wsRegexParts e.search) s = some (i, n) →
        i + n ≤ s.length ∧
        ∀ r', expandTemplate e.replace = .ok r' →
          applyDiffsGo s a k (e :: rest) =
            applyDiffsGo (s.take i ++ r' ++ s.drop (i + n)) (a + 1) k rest) ∧
      (wsSearch (wsRegexParts e.search) s = none →
        applyDiffsGo s a k (e :: rest) = applyDiffsGo s a (k + 1) rest)) := by
  constructor
  · intro hc
    constructor
    · simp [applyDiffsGo, hne, tryApplyExact, hc]
    · exact pyReplaceOnce_spec s e.search e.replace hc
  · intro hc
    constructor
    · intro i n hsearch
      refine ⟨wsSearch_le _ _ _ _ hsearch, ?_⟩
      intro r' hexp
      simp [applyDiffsGo, hne, tryApplyExact, hc, tryApplyWsTolerant, hsearch, hexp,
        Except.map]
    · intro hnone
      simp [applyDiffsGo, hne, tryApplyExact, hc, tryApplyWsTolerant, hnone]

/-- Witness for C6 at a concrete input (`"abab"` with edit `ab → X`). -/
theorem apply_diffs_in_order_single_substitution_witness :
    (pyContains "abab".toList "ab".toList = true →
      applyDiffsGo "abab".toList 0 0 [⟨"ab".toList, "X".toList, none⟩] =
        applyDiffsGo (pyReplaceOnce "abab".toList "ab".toList "X".toList) (0 + 1) 0 [] ∧
      ∃ p suf, "abab".toList = p ++ "ab".toList ++ suf ∧
        pyReplaceOnce "abab".toList "ab".toList "X".toList = p ++ "X".toList ++ suf ∧
        ∀ q r, "abab".toList = q ++ "ab".toList ++ r → p.length ≤ q.length) ∧
    (pyContains "abab".toList "ab".toList = false →
      (∀ i n, wsSearch (wsRegexParts "ab".toList) "abab".toList = some (i, n) →
        i + n ≤ "abab".toList.length ∧
        ∀ r', expandTemplate "X".toList = .ok r' →
          applyDiffsGo "abab".toList 0 0 [⟨"ab".toList, "X".toList, none⟩] =
            applyDiffsGo ("abab".toList.take i ++ r' ++ "abab".toList.drop (i + n))
              (0 + 1) 0 []) ∧
      (wsSearch (wsRegexParts "ab".toList) "abab".toList = none →
        applyDiffsGo "abab".toList 0 0 [⟨"ab".toList, "X".toList, none⟩] =
          applyDiffsGo "abab".toList 0 (0 + 1) [])) :=
  apply_diffs_in_order_single_substitution "abab".toList 0 0
    ⟨"ab".toList, "X".toList, none⟩ [] (by decide)

/-! ## `calculate_edit_distance` (code_utils.py lines 281–322)

The Python function keeps two rolling rows (`previous`, `current`),
swaps the arguments so that the shorter string indexes the rows, and
supports an optional early-exit ceiling (`max_distance`).  The embedding
mirrors that loop structure; the reference definition `lev` (textbook
Levenshtein with unit costs) is only used to prove properties of it. -/

/-- Textbook Levenshtein distance with unit costs (reference definition
for the proofs; the embedded code is `calculate_edit_distance` below). -/
def lev : PyStr → PyStr → Nat
  | [], ys => ys.length
  | x :: xs, [] => (x :: xs).length
  | x :: xs, y :: ys =>
      min (lev xs (y :: ys) + 1)
        (min (lev (x :: xs) ys + 1) (lev xs ys + (if x = y then 0 else 1)))
termination_by a b => a.length + b.length
decreasing_by all_goals (simp; try omega)

/-- Inner loop of `calculate_edit_distance`:
`for i in range(1, n+1): current[i] = min(previous[i] + 1, current[i-1] + 1,
previous[i-1] + cost)`, walking down the remaining characters of `a`
with the corresponding tail of the previous row and the last computed
`current` entry. -/
def levRowAux : PyStr → Char → List Nat → Nat → List Nat
  | [], _, _, _ => []
  | c :: cs, bj, p0 :: p1 :: ps, cur =>
      let cost := if c = bj then 0 else 1
      let v := min (p1 + 1) (min (cur + 1) (p0 + cost))
      v :: levRowAux cs bj (p1 :: ps) v
  | _ :: _, _, _, _ => []

/-- Outer loop of `calculate_edit_distance`: one iteration per character
of `b`, starting with `current[0] = j`, tracking `row_best` for the
optional early exit, swapping rows, and finally returning
`previous[n]`. -/
def levLoop (arow : PyStr) (mdist : Option Nat) : PyStr → List Nat → Nat → Nat
  | [], prev, _ => prev.getD arow.length 0
  | bj :: brest, prev, j =>
      let cur := j :: levRowAux arow bj prev j
      let rowBest := (levRowAux arow bj prev j).foldl Nat.min j
      match mdist with
      | some md => if md < rowBest then rowBest else levLoop arow mdist brest cur (j + 1)
      | none => levLoop arow mdist brest cur (j + 1)

/-- `calculate_edit_distance(a, b, max_distance=None)`.  (`if n > m:
a, b = b, a` is the branch on `b.length < a.length`.) -/
def calculate_edit_distance (a b : PyStr) (maxDistance : Option Nat := none) : Nat :=
  if a = b then 0
  else if a.length = 0 then b.length
  else if b.length = 0 then a.length
  else if b.length < a.length then
    levLoop b maxDistance a (List.range (b.length + 1)) 1
  else
    levLoop a maxDistance b (List.range (a.length + 1)) 1

/-! ### Correctness of the rolling-row loop against `lev` -/

/-- The DP cells of one column: entry `i` is the distance between the
reversed `i`-character extension of `r` along `s`, and `brev`. -/
def cells : PyStr → PyStr → PyStr → List Nat
  | r, [], brev => [lev r brev]
  | r, c :: cs, brev => lev r brev :: cells (c :: r) cs brev

theorem cells_head : ∀ (s r brev : PyStr), ∃ tl, cells r s brev = lev r brev :: tl
  | [], _, _ => ⟨[], rfl⟩
  | _ :: _, _, _ => ⟨_, rfl⟩

theorem lev_nil_right (s : PyStr) : lev s [] = s.length := by
  cases s <;> simp [lev]

/-- The first column (`previous = list(range(n + 1))`) is the column of
distances against the empty string. -/
theorem cells_nil_b : ∀ (s r : PyStr),
    cells r s [] = List.range' r.length (s.length + 1) := by
  intro s
  induction s with
  | nil => intro r; simp [cells, lev_nil_right, List.range']
  | cons c cs ih =>
      intro r
      have h := ih (c :: r)
      simp only [List.length_cons] at h
      simp only [cells, lev_nil_right, h, List.length_cons, List.range'_succ]

/-- The cons-recurrence instance that the inner loop implements. -/
theorem lev_cell_step (c bj : Char) (r brev : PyStr) :
    min (lev (c :: r) brev + 1)
        (min (lev r (bj :: brev) + 1) (lev r brev + (if c = bj then 0 else 1))) =
      lev (c :: r) (bj :: brev) := by
  conv_rhs => rw [lev]
  omega

/-- One pass of the inner loop transforms the column for `brev` into the
column for `bj :: brev`. -/
theorem levRowAux_cells : ∀ (s r : PyStr) (bj : Char) (brev : PyStr),
    lev r (bj :: brev) :: levRowAux s bj (cells r s brev) (lev r (bj :: brev)) =
      cells r s (bj :: brev) := by
  intro s
  induction s with
  | nil => intro r bj brev; simp [cells, levRowAux]
  | cons c cs ih =>
      intro r bj brev
      obtain ⟨tl, htl⟩ := cells_head cs (c :: r) brev
      have hstep : levRowAux (c :: cs) bj (cells r (c :: cs) brev) (lev r (bj :: brev)) =
          lev (c :: r) (bj :: brev) ::
            levRowAux cs bj (cells (c :: r) cs brev) (lev (c :: r) (bj :: brev)) := by
        conv_lhs => rw [cells, htl, levRowAux]
        rw [← lev_cell_step c bj r brev, ← htl]
      rw [hstep, ih (c :: r) bj brev]
      rfl

/-- The last cell of a column is the distance for the whole reversed
string. -/
theorem cells_getD_last : ∀ (s r brev : PyStr),
    (cells r s brev).getD s.length 0 = lev (s.reverse ++ r) brev := by
  intro s
  induction s with
  | nil => intro r brev; simp [cells]
  | cons c cs ih =>
      intro r brev
      simp only [cells, List.length_cons, List.getD_cons_succ, ih (c :: r) brev,
        List.reverse_cons, List.append_assoc, List.cons_append, List.nil_append]

/-- The outer loop (no early-exit ceiling) maps the column for `brevpre`
to the distance accumulated over the rest of `b`. -/
theorem levLoop_cells (arow : PyStr) : ∀ (bsuf brevpre : PyStr),
    levLoop arow none bsuf (cells [] arow brevpre) (brevpre.length + 1) =
      lev arow.reverse (bsuf.reverse ++ brevpre) := by
  intro bsuf
  induction bsuf with
  | nil =>
      intro brevpre
      simp only [levLoop, List.reverse_nil, List.nil_append]
      have := cells_getD_last arow [] brevpre
      simpa using this
  | cons bj brest ih =>
      intro brevpre
      have hfirst : lev ([] : PyStr) (bj :: brevpre) = brevpre.length + 1 := by
        simp [lev]
      have hrow := levRowAux_cells arow [] bj brevpre
      rw [hfirst] at hrow
      simp only [levLoop]
      rw [hrow]
      have := ih (bj :: brevpre)
      simp only [List.length_cons] at this
      rw [this]
      simp [List.reverse_cons, List.append_assoc]

/-- Full run: the Python loop starting from `previous = range(n+1)`,
`j = 1`, computes `lev` of the reversed strings. -/
theorem levLoop_lev (a b : PyStr) :
    levLoop a none b (List.range (a.length + 1)) 1 = lev a.reverse b.reverse := by
  have hinit : List.range (a.length + 1) = cells [] a [] := by
    rw [cells_nil_b a [], List.range_eq_range']
    rfl
  rw [hinit]
  have := levLoop_cells a b []
  simpa using this

/-- Symmetry of the reference Levenshtein distance. -/
theorem lev_symm : ∀ a b : PyStr, lev a b = lev b a
  | [], b => by cases b <;> simp [lev, lev_nil_right]
  | _ :: _, [] => by simp [lev, lev_nil_right]
  | x :: xs, y :: ys => by
      have h1 := lev_symm xs (y :: ys)
      have h2 := lev_symm (x :: xs) ys
      have h3 := lev_symm xs ys
      have hc : (if x = y then 0 else 1) = (if y = x then 0 else 1) := by
        by_cases h : x = y
        · simp [h]
        · have h' : ¬y = x := fun hyx => h hyx.symm
          simp [h, h']
      conv_lhs => rw [lev]
      conv_rhs => rw [lev]
      rw [h1, h2, h3, hc]
      omega
termination_by a b => a.length + b.length
decreasing_by all_goals (simp; try omega)

/-- C9: with no early-exit ceiling supplied, `calculate_edit_distance`
satisfies `edit_distance("", s) = len(s)`, `edit_distance(s, s) = 0`,
and symmetry `edit_distance(a, b) = edit_distance(b, a)`. -/
theorem calculate_edit_distance_props :
    (∀ s : PyStr, calculate_edit_distance [] s none = s.length) ∧
    (∀ s : PyStr, calculate_edit_distance s s none = 0) ∧
    (∀ a b : PyStr, calculate_edit_distance a b none =
      calculate_edit_distance b a none) := by
  refine ⟨?_, ?_, ?_⟩
  · intro s
    cases s with
    | nil => simp [calculate_edit_distance]
    | cons c t => simp [calculate_edit_distance]
  · intro s
    simp [calculate_edit_distance]
  · intro a b
    by_cases hab : a = b
    · simp [calculate_edit_distance, hab]
    · have hba : ¬b = a := fun h => hab h.symm
      by_cases ha : a.length = 0
      · have ha' : a = [] := List.length_eq_zero.mp ha
        have hb : ¬b.length = 0 := fun h =>
          hab (ha' ▸ (List.length_eq_zero.mp h) ▸ rfl)
        simp [calculate_edit_distance, hab, hba, ha, hb]
      · by_cases hb : b.length = 0
        · simp [calculate_edit_distance, hab, hba, ha, hb]
        · simp only [calculate_edit_distance, hab, hba, ha, hb, if_false]
          rcases Nat.lt_trichotomy a.length b.length with hlt | heq | hgt
          · have h1 : ¬b.length < a.length := by omega
            simp [h1, hlt]
          · have h1 : ¬b.length < a.length := by omega
            have h2 : ¬a.length < b.length := by omega
            simp only [h1, h2, if_false]
            rw [levLoop_lev a b, levLoop_lev b a]
            exact lev_symm a.reverse b.reverse
          · have h2 : ¬a.length < b.length := by omega
            simp [hgt, h2]

/-! ## `openevolve/process_parallel.py` — the scheduler

`ProcessParallelController.run_evolution`'s pre-submission fill
(lines 341–356) and `_submit_iteration` (lines 472–490). -/

/-- `batch_size = min(self.num_workers * 2, max_iterations)`. -/
def batchSize (numWorkers maxIterations : Nat) : Nat :=
  min (numWorkers * 2) maxIterations

/-- `batch_per_island = max(1, batch_size // self.num_islands) if
batch_size > 0 else 0`. -/
def batchPerIsland (numWorkers numIslands maxIterations : Nat) : Nat :=
  if batchSize numWorkers maxIterations > 0 then
    max 1 (batchSize numWorkers maxIterations / numIslands)
  else 0

/-- The inner pre-fill loop for one island
(`for _ in range(batch_per_island): if current_iteration <
total_iterations: submit; current_iteration += 1`): returns the number
of tasks submitted for this island and the new `current_iteration`.
(`_submit_iteration` is modelled as succeeding: the population's
sampling contract is assumed not to raise during the initial fill.) -/
def prefillIslandGo : Nat → Nat → Nat → Nat × Nat
  | 0, cur, _ => (0, cur)
  | k + 1, cur, total =>
      if cur < total then
        let (c, cur') := prefillIslandGo k (cur + 1) total
        (c + 1, cur')
      else prefillIslandGo k cur total

/-- The outer pre-fill loop (`for island_id in range(self.num_islands)`):
per-island submission counts before the main loop starts. -/
def prefillCounts : Nat → Nat → Nat → Nat → List Nat
  | 0, _, _, _ => []
  | i + 1, bpi, cur, total =>
      let (c, cur') := prefillIslandGo bpi cur total
      c :: prefillCounts i bpi cur' total

/-- Number of tasks pre-submitted per island before `run_evolution`'s
main loop starts. -/
def runEvolutionPrefill (numWorkers numIslands startIteration maxIterations : Nat) :
    List Nat :=
  prefillCounts numIslands (batchPerIsland numWorkers numIslands maxIterations)
    startIteration (startIteration + maxIterations)

theorem prefillIslandGo_eq : ∀ (k cur total : Nat),
    prefillIslandGo k cur total =
      (min k (total - cur), cur + min k (total - cur)) := by
  intro k
  induction k with
  | zero => intro cur total; simp [prefillIslandGo]
  | succ k ih =>
      intro cur total
      simp only [prefillIslandGo]
      by_cases h : cur < total
      · simp only [h, if_true, ih (cur + 1) total]
        simp only [Prod.mk.injEq]
        omega
      · simp only [h, if_false, ih cur total]
        have h0 : total - cur = 0 := by omega
        simp [h0]

/-- C2 counterexample: with 2 islands, pool size 4 and budget 100, the
code pre-submits 4 tasks per island (`min(2·4, 100) // 2 = 4`), not the
claimed pool-capacity-over-islands 2. -/
theorem prefill_two_islands_pool4_counterexample :
    batchPerIsland 4 2 100 = 4 ∧
    runEvolutionPrefill 4 2 0 100 = [4, 4] ∧
    ¬ runEvolutionPrefill 4 2 0 100 = [2, 2] := by
  decide

/-- C2 (amended): the per-island pre-submission batch size is
`max(1, min(2 · pool_size, budget) // islands)` — twice the pool
capacity divided by the island count, bounded by the budget — and with
2 islands, pool size 4 and budget at least 8, exactly 4 tasks are
pre-submitted per island before the main loop starts. -/
theorem prefill_batch_per_island (numWorkers numIslands maxIterations : Nat)
    (hw : 0 < numWorkers) (hm : 8 ≤ maxIterations) :
    batchPerIsland numWorkers numIslands maxIterations =
      max 1 (min (numWorkers * 2) maxIterations / numIslands) ∧
    batchPerIsland 4 2 maxIterations = 4 ∧
    runEvolutionPrefill 4 2 0 maxIterations = [4, 4] := by
  have hbs : batchSize 4 maxIterations = 8 := by
    simp only [batchSize]; omega
  have hb : batchPerIsland 4 2 maxIterations = 4 := by
    simp only [batchPerIsland, hbs]
    norm_num
  refine ⟨?_, hb, ?_⟩
  · have hpos : 0 < min (numWorkers * 2) maxIterations := by omega
    simp only [batchPerIsland, batchSize]
    simp [hpos]
  · simp only [runEvolutionPrefill, hb, prefillCounts, prefillIslandGo_eq]
    have h1 : min 4 (0 + maxIterations - 0) = 4 := by omega
    have h2 : min 4 (0 + maxIterations - (0 + 4)) = 4 := by omega
    simp only [h1, h2]

/-- C2 witness at the concrete budget 100. -/
theorem prefill_batch_per_island_witness :
    batchPerIsland 4 2 100 = max 1 (min (4 * 2) 100 / 2) ∧
    batchPerIsland 4 2 100 = 4 ∧
    runEvolutionPrefill 4 2 0 100 = [4, 4] :=
  prefill_batch_per_island 4 2 100 (by decide) (by decide)

/-- The population-store state visible to `_submit_iteration`: the
`current_island` pointer plus whatever else the store mutates during
sampling (abstracted as `σ`). -/
structure DBState (σ : Type) where
  current_island : Nat
  internals : σ

/-- `_submit_iteration(iteration, island_id)` (lines 472–490): bind
`current_island` to the target island, call the population's `sample`
(which may mutate the store and may raise — outcome and post-state are
given by the arbitrary `sampleFn`), restore the previous pointer in the
`finally` block, and convert any exception into a `None` future via the
outer `except`. -/
def submitIteration {σ α : Type} (db : DBState σ)
    (sampleFn : DBState σ → Except PyErr α × DBState σ)
    (islandId : Option Nat) : Option α × DBState σ :=
  let targetIsland := islandId.getD db.current_island
  let originalIsland := db.current_island
  let db1 : DBState σ := { db with current_island := targetIsland }
  let (res, db2) := sampleFn db1
  let db3 : DBState σ := { db2 with current_island := originalIsland }
  match res with
  | .ok x => (some x, db3)
  | .error _ => (none, db3)

/-- C8: after `_submit_iteration`, the population's `current_island`
pointer equals its value before the call, for every target island and
every behaviour of the sampling contract — succeeding, raising, or even
itself moving the pointer — because the `finally` block always restores
the saved value. -/
theorem submitIteration_restores_current_island {σ α : Type} (db : DBState σ)
    (sampleFn : DBState σ → Except PyErr α × DBState σ) (islandId : Option Nat) :
    (submitIteration db sampleFn islandId).2.current_island = db.current_island := by
  unfold submitIteration
  rcases h : sampleFn { db with current_island := islandId.getD db.current_island } with
    ⟨res, db2⟩
  rcases res <;> simp [h]

/-! ## `openevolve/utils/patch_sanitizer.py`

The sanitizer of `src/build/lib/openevolve/utils/patch_sanitizer.py`
(`extract_raw_patch` and its helpers).  The module-level configuration
is modelled at its defaults (`OE_TARGET_FILE` etc. unset):
`TARGET = "api.py"`, `_ALLOWED = {"api.py", "data_layer.py"}`,
`MAX_LINES = 5000`. -/

def TARGET : PyStr := "api.py".toList

def ALLOWED : List PyStr := ["api.py".toList, "data_layer.py".toList]

def MAX_LINES : Nat := 5000

/-- `s.replace("\r\n", "\n")` (leftmost, non-overlapping). -/
def replaceCrLf : PyStr → PyStr
  | '\x0d' :: '\n' :: t => '\n' :: replaceCrLf t
  | c :: t => c :: replaceCrLf t
  | [] => []

/-- `_normalize_text`: line endings to LF, strip BOM, drop zero-width
characters, non-breaking spaces to plain spaces, Unicode minus to ASCII
minus.  (`if not s: return s` is the identity on the empty string.) -/
def normalizeText (s : PyStr) : PyStr :=
  if s = [] then s
  else
    let s1 := (replaceCrLf s).map (fun c => if c = '\x0d' then '\n' else c)
    let s2 := if s1.head? = some '﻿' then s1.tail else s1
    let s3 := s2.filter (fun c =>
      !(c = '​' || c = '‌' || c = '‍' || c = '⁠' || c = '﻿'))
    let s4 := s3.map (fun c => if c = ' ' || c = ' ' then ' ' else c)
    s4.map (fun c => if c = '−' then '-' else c)

/-- `\w` (ASCII part): letters, digits, underscore. -/
def isWordChar (c : Char) : Bool :=
  c.isAlpha || c.isDigit || c = '_'

/-- Scan for the closing ```` ``` ```` of a fenced block: returns the
lazy body (text before the first closing fence) and the remainder. -/
def splitAtTriple : PyStr → Option (PyStr × PyStr)
  | [] => none
  | c :: t =>
      if c = '`' ∧ ("``".toList).isPrefixOf t then some ([], t.drop 2)
      else (splitAtTriple t).map (fun p => (c :: p.1, p.2))

theorem splitAtTriple_length : ∀ (x : PyStr) (p : PyStr × PyStr),
    splitAtTriple x = some p → p.2.length + 3 ≤ x.length := by
  intro x
  induction x with
  | nil => intro p h; simp [splitAtTriple] at h
  | cons c t ih =>
      intro p h
      simp only [splitAtTriple] at h
      by_cases hc : c = '`' ∧ ("``".toList).isPrefixOf t
      · simp only [hc, if_true] at h
        have hlen : 2 ≤ t.length := by
          have := (List.isPrefixOf_iff_prefix.mp hc.2).length_le
          simpa using this
        have hp : p = (([] : PyStr), t.drop 2) := by
          exact (Option.some.injEq _ _ ▸ h).symm
        subst hp
        simp only [List.length_drop, List.length_cons]
        omega
      · simp only [hc, if_false, Option.map_eq_some'] at h
        obtain ⟨q, hq, rfl⟩ := h
        have := ih q hq
        simp only [List.length_cons]
        omega

/-- `finditer` of ``` ```(?P<tag>\w+)?\s*(?P<body>.*?)``` ``` (DOTALL):
at each opening fence the optional greedy tag is the maximal word-char
run, `\s*` the maximal whitespace run after it (neither can cross a
backtick), and the lazy body extends to the next closing fence; when no
closing fence exists no later opening can complete a match either (tag
and whitespace runs contain no backtick, so the closing-fence search
space only shrinks), and scanning stops.  The `fuel` argument makes the
recursion structural; `fenceBlocks` supplies `s.length`, which the
scan's progress never exceeds. -/
def fenceBlocksAux : Nat → PyStr → List (PyStr × PyStr)
  | 0, _ => []
  | _ + 1, [] => []
  | fuel + 1, c :: t =>
      if c = '`' ∧ ("``".toList).isPrefixOf t then
        let rest := t.drop 2
        let tag := rest.takeWhile isWordChar
        let rest2 := (rest.drop tag.length).dropWhile isPyWs
        match splitAtTriple rest2 with
        | some (body, after) => (tag, body) :: fenceBlocksAux fuel after
        | none => []
      else fenceBlocksAux fuel t

def fenceBlocks (s : PyStr) : List (PyStr × PyStr) := fenceBlocksAux s.length s

/-- Python `str.count(sub)` for a non-empty `sub`: leftmost
non-overlapping occurrences.  (All uses pass non-empty literals.  The
`fuel` argument makes the recursion structural; `pyCount` supplies the
haystack length.) -/
def pyCountTokAux (sub : PyStr) : Nat → PyStr → Nat
  | 0, _ => 0
  | _ + 1, [] => 0
  | fuel + 1, c :: t =>
      if sub ≠ [] ∧ sub.isPrefixOf (c :: t) then
        1 + pyCountTokAux sub fuel (t.drop (sub.length - 1))
      else pyCountTokAux sub fuel t

def pyCountTok (sub s : PyStr) : Nat := pyCountTokAux sub s.length s

/-- `str.lower()` (ASCII letters). -/
def pyLower (s : PyStr) : PyStr := s.map Char.toLower

/-- The score of one fenced block in `_choose_best_block`. -/
def blockScore (tag body : PyStr) : Nat :=
  (if pyLower tag = "diff".toList || pyLower tag = "patch".toList then 5 else 0) +
    (pyCountTok "--- ".toList body + pyCountTok "+++ ".toList body +
      pyCountTok "@@ ".toList body + pyCountTok "diff --git".toList body +
      pyCountTok "\n+".toList body + pyCountTok "\n-".toList body +
      pyCountTok "index ".toList body)

/-- `scored.sort(key=…, reverse=True)` is stable, so `scored[0]` is the
first block with the maximal score. -/
def firstWithScore : List (Nat × PyStr) → Nat → Option PyStr
  | [], _ => none
  | (sc, body) :: rest, m => if sc = m then some body else firstWithScore rest m

/-- `_choose_best_block`. -/
def chooseBestBlock (text : PyStr) : PyStr :=
  match fenceBlocks text with
  | [] => text
  | bs =>
      let scored := bs.map (fun p => (blockScore p.1 p.2, p.2))
      let m := scored.foldl (fun acc p => max acc p.1) 0
      (firstWithScore scored m).getD text

/-- Case-insensitive literal prefix match (ASCII), returning the rest. -/
def ciPrefix : PyStr → PyStr → Option PyStr
  | [], s => some s
  | _ :: _, [] => none
  | p :: ps, c :: cs => if p.toLower = c.toLower then ciPrefix ps cs else none

/-- `[0-9a-f]` under `re.I`. -/
def isHexDigitCI (c : Char) : Bool :=
  c.isDigit || ('a' ≤ c.toLower && c.toLower ≤ 'f')

/-- `^diff --git .*$` (re.I). -/
def reDiffGit (l : PyStr) : Bool := (ciPrefix "diff --git ".toList l).isSome

/-- `^index [0-9a-f]+\.\.[0-9a-f]+(?: \d+)?$` (re.I). -/
def reIndexHdr (l : PyStr) : Bool :=
  match ciPrefix "index ".toList l with
  | none => false
  | some r =>
      let h1 := r.takeWhile isHexDigitCI
      if h1 = [] then false
      else
        match r.drop h1.length with
        | '.' :: '.' :: r2 =>
            let h2 := r2.takeWhile isHexDigitCI
            if h2 = [] then false
            else
              match r2.drop h2.length with
              | [] => true
              | ' ' :: ds => ds ≠ [] && ds.all Char.isDigit
              | _ => false
        | _ => false

/-- `^(?:new|deleted) file mode \d+$` (re.I). -/
def reFileMode (l : PyStr) : Bool :=
  let tail :=
    match ciPrefix "new ".toList l with
    | some r => some r
    | none => ciPrefix "deleted ".toList l
  match tail with
  | none => false
  | some r =>
      match ciPrefix "file mode ".toList r with
      | none => false
      | some ds => ds ≠ [] && ds.all Char.isDigit

/-- `^similarity index \d+%$` (re.I). -/
def reSimilarity (l : PyStr) : Bool :=
  match ciPrefix "similarity index ".toList l with
  | none => false
  | some r =>
      let ds := r.takeWhile Char.isDigit
      ds ≠ [] && r.drop ds.length = ['%']

/-- `^rename (?:from|to) .+$` (re.I). -/
def reRename (l : PyStr) : Bool :=
  match ciPrefix "rename ".toList l with
  | none => false
  | some r =>
      let tail :=
        match ciPrefix "from ".toList r with
        | some r2 => some r2
        | none => ciPrefix "to ".toList r
      match tail with
      | none => false
      | some r2 => r2 ≠ []

/-- `_strip_git_headers`. -/
def stripGitHeaders (lines : List PyStr) : List PyStr :=
  lines.filter (fun l =>
    !(reDiffGit l || reIndexHdr l || reFileMode l || reSimilarity l || reRename l))

/-- `_RE_OLD` = `^---\s+(.*)$`: the group is the text after the maximal
whitespace run following `---` (the greedy `\s+` takes the whole run and
`(.*)$` the rest). -/
def matchOldHeader (l : PyStr) : Option PyStr :=
  if ("---".toList).isPrefixOf l then
    let r := l.drop 3
    let w := r.takeWhile isPyWs
    if w = [] then none else some (r.drop w.length)
  else none

/-- `_RE_NEW` = `^\+\+\+\s+(.*)$`. -/
def matchNewHeader (l : PyStr) : Option PyStr :=
  if ("+++".toList).isPrefixOf l then
    let r := l.drop 3
    let w := r.takeWhile isPyWs
    if w = [] then none else some (r.drop w.length)
  else none

/-- `_retarget_path`. -/
def retargetPath (path : PyStr) : PyStr :=
  let p1 := pyStrip path
  let p2 := if ("a/".toList).isPrefixOf p1 || ("b/".toList).isPrefixOf p1
            then p1.drop 2 else p1
  let p3 := if p2 = "app.py".toList then TARGET else p2
  if p3 ∈ ALLOWED then p3 else TARGET

/-- `\d+(?:,\d+)?`: a hunk-range number with optional `,length` part
(the optional group is taken exactly when a comma followed by a digit
follows, which matches the greedy regex with backtracking because the
continuation `\s+`/`\s*` can never consume the comma). -/
def parseHunkNum (s : PyStr) : Option (PyStr × PyStr) :=
  let d := s.takeWhile Char.isDigit
  if d = [] then none
  else
    let r := s.drop d.length
    match r with
    | ',' :: r2 =>
        let d2 := r2.takeWhile Char.isDigit
        if d2 = [] then some (d, r)
        else some (d ++ ',' :: d2, r2.drop d2.length)
    | _ => some (d, r)

/-- `_RE_FIX_HUNK` = `^@@\s*-(\d+(?:,\d+)?)\s+\+(\d+(?:,\d+)?)\s*@.*$`:
returns the two captured range texts. -/
def matchFixHunk (l : PyStr) : Option (PyStr × PyStr) :=
  if ("@@".toList).isPrefixOf l then
    let s := (l.drop 2).dropWhile isPyWs
    match s with
    | '-' :: s1 =>
        match parseHunkNum s1 with
        | none => none
        | some (g1, s2) =>
            let w := s2.takeWhile isPyWs
            if w = [] then none
            else
              match s2.drop w.length with
              | '+' :: s3 =>
                  match parseHunkNum s3 with
                  | none => none
                  | some (g2, s4) =>
                      match s4.dropWhile isPyWs with
                      | '@' :: _ => some (g1, g2)
                      | _ => none
              | _ => none
    | _ => none
  else none

/-- `_RE_VALID_HUNK` =
`^@@\s*-\d+(?:,\d+)?\s+\+\d+(?:,\d+)?\s*@@(?:\s.*)?$`. -/
def isValidHunk (l : PyStr) : Bool :=
  if ("@@".toList).isPrefixOf l then
    let s := (l.drop 2).dropWhile isPyWs
    match s with
    | '-' :: s1 =>
        match parseHunkNum s1 with
        | none => false
        | some (_, s2) =>
            let w := s2.takeWhile isPyWs
            if w = [] then false
            else
              match s2.drop w.length with
              | '+' :: s3 =>
                  match parseHunkNum s3 with
                  | none => false
                  | some (_, s4) =>
                      match s4.dropWhile isPyWs with
                      | '@' :: '@' :: rest =>
                          match rest with
                          | [] => true
                          | c :: _ => isPyWs c
                      | _ => false
              | _ => false
    | _ => false
  else false

/-- The header/hunk rewriting loop of `extract_raw_patch` (retarget
`---`/`+++` headers, repair malformed hunk tails). -/
def fixLine (l : PyStr) : PyStr :=
  match matchOldHeader l with
  | some p => "--- a/".toList ++ retargetPath p
  | none =>
      match matchNewHeader l with
      | some p => "+++ b/".toList ++ retargetPath p
      | none =>
          match matchFixHunk l with
          | some (g1, g2) => "@@ -".toList ++ g1 ++ " +".toList ++ g2 ++ " @@".toList
          | none => l

/-- `_is_diff_content`. -/
def isDiffContent (l : PyStr) : Bool :=
  if l = [] then false
  else if pyStartsWith l "--- ".toList || pyStartsWith l "+++ ".toList then true
  else if pyStartsWith l "@@".toList && (l.contains '+' && l.contains '-') then true
  else if pyStartsWith l "+".toList || pyStartsWith l "-".toList ||
      pyStartsWith l " ".toList then true
  else isValidHunk l

/-- `lines.index(ln)`: index of the first occurrence of the value. -/
def pyIndex : List PyStr → PyStr → Nat
  | [], _ => 0
  | x :: xs, l => if x = l then 0 else 1 + pyIndex xs l

/-- The filter's proximity test:
`any(lines[max(0, i-2):i+3] for i, l in enumerate(lines) if
l.startswith("@@") and abs(lines.index(ln) - i) <= 10)` — the slice is
non-empty for every index `i` that passes the filter (it contains
`lines[i]` itself), so the `any` is exactly "some `@@` line lies within
10 of the first occurrence of `ln`". -/
def hunkNear (lines : List PyStr) (ln : PyStr) : Bool :=
  let idx := pyIndex lines ln
  (List.range lines.length).any (fun i =>
    pyStartsWith (lines.getD i []) "@@".toList &&
      (decide (idx ≤ i + 10) && decide (i ≤ idx + 10)))

/-- The "more permissive filtering" loop of `extract_raw_patch`. -/
def filterPermissive (lines : List PyStr) : List PyStr :=
  lines.filterMap (fun ln =>
    if isDiffContent ln || pyStrip ln = [] then some ln
    else if hunkNear lines ln then
      if !(pyStartsWith ln "+".toList || pyStartsWith ln "-".toList ||
            pyStartsWith ln " ".toList) && pyStrip ln ≠ [] then
        some (' ' :: ln)
      else some ln
    else none)

/-- `re.findall(r'-(\d+(?:,\d+)?)\s+\+(\d+(?:,\d+)?)', ln)`, first
match (the code uses `numbers[0]`): leftmost scan for
`-num  +num`. -/
def findNumPair : PyStr → Option (PyStr × PyStr)
  | [] => none
  | c :: t =>
      let here : Option (PyStr × PyStr) :=
        if c = '-' then
          match parseHunkNum t with
          | none => none
          | some (n1, r) =>
              let w := r.takeWhile isPyWs
              if w = [] then none
              else
                match r.drop w.length with
                | '+' :: r2 =>
                    match parseHunkNum r2 with
                    | none => none
                    | some (n2, _) => some (n1, n2)
                | _ => none
        else none
      match here with
      | some p => some p
      | none => findNumPair t

/-- The "fix malformed hunk headers" loop of `extract_raw_patch` (the
`normalized` list). -/
def normalizeHunkLine (ln : PyStr) : PyStr :=
  if pyStartsWith ln "@@".toList && !isValidHunk ln then
    match matchFixHunk ln with
    | some (g1, g2) => "@@ -".toList ++ g1 ++ " +".toList ++ g2 ++ " @@".toList
    | none =>
        if ln.contains '@' && ln.contains '-' && ln.contains '+' then
          match findNumPair ln with
          | some (n1, n2) => "@@ -".toList ++ n1 ++ " +".toList ++ n2 ++ " @@".toList
          | none => ln
        else ln
  else ln

/-- `_coerce_hunk_lines` (the build/lib revision, with its in-hunk
state machine). -/
def coerceHunkLines : List PyStr → Bool → List PyStr
  | [], _ => []
  | ln :: rest, inHunk =>
      if pyStartsWith ln "@@".toList || isValidHunk ln then
        ln :: coerceHunkLines rest true
      else if pyStartsWith ln "--- ".toList || pyStartsWith ln "+++ ".toList then
        ln :: coerceHunkLines rest false
      else if inHunk then
        (if pyStartsWith ln "+".toList || pyStartsWith ln "-".toList ||
            pyStartsWith ln " ".toList then ln
         else if ln = [] then [' ']
         else if pyStrip ln = [] then [' ']
         else ' ' :: ln) :: coerceHunkLines rest true
      else
        -- outside hunks: keep only headers / hunk starts (both already
        -- consumed by the branches above, mirrored here faithfully)
        if pyStartsWith ln "--- ".toList || pyStartsWith ln "+++ ".toList ||
            pyStartsWith ln "@@".toList || isValidHunk ln then
          ln :: coerceHunkLines rest
            (pyStartsWith ln "@@".toList || isValidHunk ln)
        else coerceHunkLines rest false

/-- `while lines and not lines[-1].strip(): lines.pop()`. -/
def popTrailingBlank (lines : List PyStr) : List PyStr :=
  ((lines.reverse).dropWhile (fun l => pyStrip l = [])).reverse

/-- The `for i, ln in enumerate(out_lines): if not
ln.startswith(("--- ", "+++ ")): content_start = i; break` search;
when the loop finishes without a break, `content_start` keeps its
initial value 0. -/
def findContentStart : List PyStr → Nat → Nat
  | [], _ => 0
  | ln :: rest, i =>
      if !(pyStartsWith ln "--- ".toList || pyStartsWith ln "+++ ".toList) then i
      else findContentStart rest (i + 1)

/-- The "Ensure proper headers" rewrite at the end of
`extract_raw_patch`. -/
def forceHeaders (out : PyStr) : PyStr :=
  let outLines := pySplitNl out
  let contentStart := findContentStart outLines 0
  "--- a/".toList ++ TARGET ++ ('\n' :: ("+++ b/".toList ++ TARGET)) ++
    ('\n' :: pyJoinNl (outLines.drop contentStart))

/-- `extract_raw_patch` (patch_sanitizer.py, build/lib revision), at the
default configuration.  `str.splitlines()` on the assembled output is
modelled as splitting on `\n` (the only line terminator the pipeline
produces between lines; exotic in-line terminators such as `\x0c` are
outside the modelled character set). -/
def extract_raw_patch (text : PyStr) : PyStr :=
  if pyStrip text = [] then []
  else
    let text1 := normalizeText text
    let candidate := normalizeText (chooseBestBlock text1)
    let lines0 := (pySplitNl candidate).map pyRStrip
    let lines1 := if lines0.length > MAX_LINES then lines0.take MAX_LINES else lines0
    let lines2 := stripGitHeaders lines1
    if lines2 = [] then []
    else
      let lines3 := lines2.map fixLine
      let lines4 := filterPermissive lines3
      if lines4 = [] then []
      else
        let hasHunkHeader := lines4.any (fun ln =>
          pyStartsWith ln "@@".toList || isValidHunk ln)
        let hasChanges := lines4.any (fun ln =>
          pyStartsWith ln "+".toList || pyStartsWith ln "-".toList)
        if !hasHunkHeader && !hasChanges then []
        else
          let hasHeaders := lines4.any (fun ln => pyStartsWith ln "--- a/".toList) &&
            lines4.any (fun ln => pyStartsWith ln "+++ b/".toList)
          let lines5 := if !hasHeaders && (hasHunkHeader || hasChanges) then
              ("--- a/".toList ++ TARGET) :: ("+++ b/".toList ++ TARGET) :: lines4
            else lines4
          let lines6 := lines5.map normalizeHunkLine
          let lines7 := coerceHunkLines lines6 false
          let lines8 := popTrailingBlank lines7
          let out := pyJoinNl lines8
          if pyStrip out = [] then []
          else if !pyContains out "@@".toList then []
          else if !(pySplitNl out).any (fun ln =>
              pyStartsWith ln "+".toList || pyStartsWith ln "-".toList) then []
          else
            let out2 := if pyStartsWith out ("--- a/".toList ++ TARGET) then out
              else forceHeaders out
            if out2.getLast? = some '\n' then out2 else out2 ++ ['\n']

/-! ## `extract_diffs` (code_utils.py lines 50–129)

`_TRIPLE_FENCE`, `_strip_code_fences` and `_parse_search_replace_block`
hand-compiled; the same determinisation arguments as for the sanitizer's
fence scanner apply (tags and whitespace runs contain no backtick, and
`\s*` before a literal can only stop at the last matching position of
its run). -/

/-- Split at the first occurrence of `sub` (non-empty in all uses):
`(prefix, suffix-after-sub)`.  Fuel-structural; callers pass the
haystack length plus one. -/
def splitAtSub (sub : PyStr) : Nat → PyStr → Option (PyStr × PyStr)
  | 0, _ => none
  | fuel + 1, s =>
      if sub.isPrefixOf s then some ([], s.drop sub.length)
      else
        match s with
        | [] => none
        | c :: t => (splitAtSub sub fuel t).map (fun p => (c :: p.1, p.2))

/-- `\s*` followed by a literal `\n`: the newline consumed is the last
one inside the leading whitespace run (greedy `\s*` backtracks to it);
returns the suffix after that newline. -/
def afterWsNewline : PyStr → Option PyStr :=
  go none
where
  go : Option PyStr → PyStr → Option PyStr
    | acc, [] => acc
    | acc, c :: t =>
        if isPyWs c then go (if c = '\n' then some t else acc) t
        else acc

/-- The tag alternation of `_TRIPLE_FENCE` (first alternative wins, as
in regex alternation; `re.I`). -/
def fenceTagLen (s : PyStr) : Nat :=
  let alts := ["diff", "patch", "python", "py", "javascript", "js", "ts", "tsx",
    "json", "yaml", "yml", "text", "md", "html", "bash", "sh"]
  match alts.find? (fun a => (ciPrefix a.toList s).isSome) with
  | some a => a.length
  | none => 0

/-- `_TRIPLE_FENCE.findall`: the bodies of all fenced blocks. -/
def tripleFenceAux : Nat → PyStr → List PyStr
  | 0, _ => []
  | _ + 1, [] => []
  | fuel + 1, c :: t =>
      if c = '`' ∧ ("``".toList).isPrefixOf t then
        let rest := t.drop 2
        let rest2 := (rest.drop (fenceTagLen rest)).dropWhile isPyWs
        match splitAtTriple rest2 with
        | some (body, after) => body :: tripleFenceAux fuel after
        | none => []
      else tripleFenceAux fuel t

def tripleFenceFindall (s : PyStr) : List PyStr := tripleFenceAux s.length s

/-- `_strip_code_fences`: body of the first fenced block, else the text. -/
def stripCodeFences (text : PyStr) : PyStr :=
  (tripleFenceFindall text).headD text

/-- `^\s*FILE\s*:\s*(.+)$` (re.I | re.M) at one line start: leading
`\s*` may cross newlines; the group starts at the end of the whitespace
run after the colon (or, when that run reaches the end of the string, at
its last non-newline character) and extends to its line's end. -/
def tryFileHeaderAt (s : PyStr) : Option PyStr :=
  let s1 := s.dropWhile isPyWs
  match ciPrefix "file".toList s1 with
  | none => none
  | some s2 =>
      match (s2.dropWhile isPyWs) with
      | ':' :: s4 =>
          let run := s4.takeWhile isPyWs
          if run.length < s4.length then
            some ((s4.drop run.length).takeWhile (fun c => c ≠ '\n'))
          else
            match run.reverse.dropWhile (fun c => c = '\n') with
            | [] => none
            | c :: _ => some [c]
      | _ => none

/-- `re.search` of the FILE-header pattern: scan the line starts in
order. -/
def searchFileHeaderGo : PyStr → Bool → Option PyStr
  | s, atStart =>
      match (if atStart then tryFileHeaderAt s else none) with
      | some g => some g
      | none =>
          match s with
          | [] => none
          | c :: t => searchFileHeaderGo t (c = '\n')

def searchFileHeader (s : PyStr) : Option PyStr := searchFileHeaderGo s true

/-- One match of the removal pattern `^\s*FILE\s*:\s*.+\n?` (re.I|re.M)
at a line start: the suffix after the matched span (the group's line,
including its trailing newline when present). -/
def tryFileRemoveAt (s : PyStr) : Option PyStr :=
  let s1 := s.dropWhile isPyWs
  match ciPrefix "file".toList s1 with
  | none => none
  | some s2 =>
      match (s2.dropWhile isPyWs) with
      | ':' :: s4 =>
          let run := s4.takeWhile isPyWs
          let start? : Option PyStr :=
            if run.length < s4.length then some (s4.drop run.length)
            else
              match run.reverse.dropWhile (fun c => c = '\n') with
              | [] => none
              | _ :: k => some (s4.drop k.length)
          match start? with
          | none => none
          | some g =>
              let rest := g.dropWhile (fun c => c ≠ '\n')
              match rest with
              | '\n' :: r => some r
              | r => some r
      | _ => none

/-- `re.sub(r"^\s*FILE\s*:\s*.+\n?", "", body, flags=re.I | re.M)`. -/
def removeFileHeadersGo : Nat → PyStr → Bool → PyStr
  | 0, s, _ => s
  | fuel + 1, s, atStart =>
      match (if atStart then tryFileRemoveAt s else none) with
      | some rest => removeFileHeadersGo fuel rest true
      | none =>
          match s with
          | [] => []
          | c :: t => c :: removeFileHeadersGo fuel t (c = '\n')

def removeFileHeaders (s : PyStr) : PyStr := removeFileHeadersGo s.length s true

/-- `>>>>>>>\s*REPLACE\s*$`-side of the Style-A pattern, applied after a
candidate `\n>>>>>>>` separator: whitespace, `REPLACE` (re.I), then only
whitespace to the end (`$` may also sit before a final newline, which
the all-whitespace check subsumes). -/
def styleAEndOk (post : PyStr) : Bool :=
  match ciPrefix "replace".toList (post.dropWhile isPyWs) with
  | some rem => rem.all isPyWs
  | none => false

/-- Lazy `(.*?)\n>>>>>>>` scan with the end check: the first separator
whose continuation succeeds wins (backtracking extends the lazy group to
the next separator). -/
def scanReplEnd : Nat → PyStr → Option PyStr
  | 0, _ => none
  | fuel + 1, s =>
      match splitAtSub "\n>>>>>>>".toList (s.length + 1) s with
      | none => none
      | some (pre2, post2) =>
          if styleAEndOk post2 then some pre2
          else
            match scanReplEnd fuel (s.drop (pre2.length + 1)) with
            | some g => some (s.take (pre2.length + 1) ++ g)
            | none => none

/-- Lazy `(.*?)\n=======\n` scan with the Style-A tail: the first
`=======` separator from which the replace side completes wins. -/
def scanSepRepl : Nat → PyStr → Option (PyStr × PyStr)
  | 0, _ => none
  | fuel + 1, s =>
      match splitAtSub "\n=======\n".toList (s.length + 1) s with
      | none => none
      | some (pre, post) =>
          match scanReplEnd (post.length + 1) post with
          | some g2 => some (pre, g2)
          | none =>
              match scanSepRepl fuel (s.drop (pre.length + 1)) with
              | some (g1, g2) => some (s.take (pre.length + 1) ++ g1, g2)
              | none => none

/-- Style A at one `<<<<<<<` occurrence:
`<<<<<<<\s*SEARCH\s*\n(.*?)\n=======\n(.*?)\n>>>>>>>\s*REPLACE\s*$`
(re.S | re.I). -/
def tryStyleAAt (s : PyStr) : Option (PyStr × PyStr) :=
  match ciPrefix "<<<<<<<".toList s with
  | none => none
  | some s1 =>
      match ciPrefix "search".toList (s1.dropWhile isPyWs) with
      | none => none
      | some s2 =>
          match afterWsNewline s2 with
          | none => none
          | some s3 => scanSepRepl (s3.length + 1) s3

/-- `re.search` for Style A: leftmost `<<<<<<<` occurrence whose
continuation matches. -/
def parseStyleA : Nat → PyStr → Option (PyStr × PyStr)
  | 0, _ => none
  | fuel + 1, s =>
      match tryStyleAAt s with
      | some p => some p
      | none =>
          match s with
          | [] => none
          | _ :: t => parseStyleA fuel t

/-- One candidate `\nREPLACE\s*:\s*\n` separator of Style B, checked at
a split after `\n`: `REPLACE` (re.I), whitespace, colon, whitespace up
to its last newline; returns the suffix after that newline (group 2 is
the whole remainder, `(.*)$` under DOTALL). -/
def styleBSepAt (post : PyStr) : Option PyStr :=
  match ciPrefix "replace".toList post with
  | none => none
  | some r1 =>
      match (r1.dropWhile isPyWs) with
      | ':' :: r2 => afterWsNewline r2
      | _ => none

/-- Lazy `(.*?)\nREPLACE\s*:\s*\n(.*)$` scan. -/
def scanStyleBSep : Nat → PyStr → Option (PyStr × PyStr)
  | 0, _ => none
  | fuel + 1, s =>
      match splitAtSub "\n".toList (s.length + 1) s with
      | none => none
      | some (pre, post) =>
          match styleBSepAt post with
          | some g2 => some (pre, g2)
          | none =>
              match scanStyleBSep fuel (s.drop (pre.length + 1)) with
              | some (g1, g2) => some (s.take (pre.length + 1) ++ g1, g2)
              | none => none

/-- Style B at one `SEARCH` occurrence:
`SEARCH\s*:\s*\n(.*?)\nREPLACE\s*:\s*\n(.*)$` (re.S | re.I). -/
def tryStyleBAt (s : PyStr) : Option (PyStr × PyStr) :=
  match ciPrefix "search".toList s with
  | none => none
  | some s1 =>
      match (s1.dropWhile isPyWs) with
      | ':' :: s2 =>
          match afterWsNewline s2 with
          | none => none
          | some s3 => scanStyleBSep (s3.length + 1) s3
      | _ => none

def parseStyleB : Nat → PyStr → Option (PyStr × PyStr)
  | 0, _ => none
  | fuel + 1, s =>
      match tryStyleBAt s with
      | some p => some p
      | none =>
          match s with
          | [] => none
          | _ :: t => parseStyleB fuel t

/-- `_parse_search_replace_block`. -/
def parseSearchReplaceBlock (text : PyStr) : Option DiffBlock :=
  let body0 := pyStrip (stripCodeFences text)
  let targetFile := (searchFileHeader body0).map pyStrip
  let body := if (searchFileHeader body0).isSome then removeFileHeaders body0 else body0
  match parseStyleA (body.length + 1) body with
  | some (s, r) => some ⟨s, r, targetFile⟩
  | none =>
      match parseStyleB (body.length + 1) body with
      | some (s, r) => some ⟨s, r, targetFile⟩
      | none => none

/-- `extract_diffs`. -/
def extract_diffs (response_text : PyStr) : List DiffBlock :=
  let blocks := (tripleFenceFindall response_text).filterMap (fun chunk =>
    parseSearchReplaceBlock ("```".toList ++ chunk ++ "```".toList))
  if blocks = [] then
    match parseSearchReplaceBlock response_text with
    | some db => [db]
    | none => []
  else blocks

/-! ## `parse_full_rewrite` (code_utils.py back-compat shim, lines 591–651)

Active because no earlier `parse_full_rewrite` exists in the module.  It
returns a one-element list `[{"type": "rewrite", "path": …, "content":
…}]` for every input (its internal operations cannot raise, so the
`except` branch returning `[]` is unreachable, but it is kept in the
type as the `[]` case the worker tests for). -/

/-- `[A-Za-z0-9_+\-]` — the `lang` charset of `_FENCE_RE`. -/
def isLangChar (c : Char) : Bool :=
  c.isAlpha || c.isDigit || c = '_' || c = '+' || c = '-'

/-- One attempt of `_FENCE_RE` =
```` ```(?P<lang>[A-Za-z0-9_+\-]*)\s*\n(?P<body>.*?)\n``` ```` (DOTALL)
at a position: the greedy lang run, whitespace up to its last newline,
then the lazy body up to the first `\n```° . -/
def tryFullRewriteFenceAt (s : PyStr) : Option PyStr :=
  if ("```".toList).isPrefixOf s then
    let rest := s.drop 3
    let rest2 := rest.drop (rest.takeWhile isLangChar).length
    match afterWsNewline rest2 with
    | none => none
    | some b => (splitAtSub "\n```".toList (b.length + 1) b).map (·.1)
  else none

/-- `_FENCE_RE.search`: scan left to right (a failed opening here does
not rule out a later one, because this pattern requires a newline before
the body). -/
def searchFullRewriteFence : Nat → PyStr → Option PyStr
  | 0, _ => none
  | fuel + 1, s =>
      match tryFullRewriteFenceAt s with
      | some b => some b
      | none =>
          match s with
          | [] => none
          | _ :: t => searchFullRewriteFence fuel t

/-- `strip("\n")`. -/
def pyStripNl (s : PyStr) : PyStr :=
  (((s.dropWhile (· = '\n')).reverse).dropWhile (· = '\n')).reverse

/-- `.strip().strip("`'\"")`. -/
def stripQuotes (s : PyStr) : PyStr :=
  let isQ : Char → Bool := fun c => c = '`' || c = '\x27' || c = '"'
  let s1 := pyStrip s
  (((s1.dropWhile isQ).reverse).dropWhile isQ).reverse

/-- `^\s*(#|//|/\*+)?\s*(file|path)\s*:` (re.match, re.I): the optional
comment marker and the keyword start on disjoint characters, so the
regex is deterministic. -/
def isHeaderHintLine1 (l : PyStr) : Bool :=
  let s1 := l.dropWhile isPyWs
  let s2 :=
    match s1 with
    | '#' :: r => r
    | '/' :: '/' :: r => r
    | '/' :: '*' :: r => r.dropWhile (· = '*')
    | _ => s1
  let s3 := s2.dropWhile isPyWs
  let kw :=
    match ciPrefix "file".toList s3 with
    | some r => some r
    | none => ciPrefix "path".toList s3
  match kw with
  | none => false
  | some s4 =>
      match s4.dropWhile isPyWs with
      | ':' :: _ => true
      | _ => false

/-- `^\s*(BEGIN\s+FILE|FILE)\s*:` (re.match, re.I). -/
def isHeaderHintLine2 (l : PyStr) : Bool :=
  let s1 := l.dropWhile isPyWs
  let kw :=
    match ciPrefix "begin".toList s1 with
    | some r =>
        let w := r.takeWhile isPyWs
        if w = [] then ciPrefix "file".toList s1
        else ciPrefix "file".toList (r.drop w.length)
    | none => ciPrefix "file".toList s1
  match kw with
  | none => false
  | some s4 =>
      match s4.dropWhile isPyWs with
      | ':' :: _ => true
      | _ => false

/-- `_strip_header_lines`. -/
def stripHeaderLines (s : PyStr) : PyStr :=
  pyJoinNl ((pySplitNl s).filter (fun l =>
    !(isHeaderHintLine1 l || isHeaderHintLine2 l)))

/-- The keyword part of `_find_path_hint`'s patterns. -/
def pathHintKw (alt2 : Bool) (s : PyStr) : Option PyStr :=
  if alt2 then
    match ciPrefix "begin".toList s with
    | some r =>
        let w := r.takeWhile isPyWs
        if w = [] then ciPrefix "file".toList s
        else ciPrefix "file".toList (r.drop w.length)
    | none => ciPrefix "file".toList s
  else
    match ciPrefix "file".toList s with
    | some r => some r
    | none => ciPrefix "path".toList s

/-- The `\s*(?P<p>.+)$` tail of `_find_path_hint` — without
`re.MULTILINE`, `$` only matches at the end of the string or before a
final newline, so the greedy backtracking admits a group only on the
last line; candidate group starts walk the whitespace run from its end
backwards. -/
def pathHintTail : Nat → PyStr → Option PyStr
  | 0, _ => none
  | j + 1, s4 =>
      let g := (s4.drop j).takeWhile (fun c => c ≠ '\n')
      let rest := (s4.drop j).dropWhile (fun c => c ≠ '\n')
      if (j = (s4.takeWhile isPyWs).length ∨ s4.getD j ' ' ≠ '\n') ∧ g ≠ [] ∧
          (rest = [] ∨ rest = ['\n']) then
        some g
      else pathHintTail j s4

def pathHintAt (alt2 : Bool) (s : PyStr) : Option PyStr :=
  match pathHintKw alt2 (s.dropWhile isPyWs) with
  | none => none
  | some s2 =>
      match s2.dropWhile isPyWs with
      | ':' :: s4 => pathHintTail ((s4.takeWhile isPyWs).length + 1) s4
      | _ => none

/-- `re.search` of a `_find_path_hint` pattern: candidate starts are the
string start and every position after a newline. -/
def searchPathHint (alt2 : Bool) : PyStr → Bool → Option PyStr
  | s, atStart =>
      match (if atStart then pathHintAt alt2 s else none) with
      | some g => some g
      | none =>
          match s with
          | [] => none
          | c :: t => searchPathHint alt2 t (c = '\n')

/-- `_find_path_hint`. -/
def findPathHint (head : PyStr) : PyStr :=
  match searchPathHint false head true with
  | some p => stripQuotes p
  | none =>
      match searchPathHint true head true with
      | some p => stripQuotes p
      | none => []

/-- One `{"type": "rewrite", "path": …, "content": …}` element. -/
structure RewriteBlock where
  path : PyStr
  content : PyStr
deriving Repr, DecidableEq

/-- `parse_full_rewrite(response_text, language)` (list form, as the
worker calls it). -/
def parse_full_rewrite (response_text : PyStr) : List RewriteBlock :=
  let candidate := (searchFullRewriteFence (response_text.length + 1)
    response_text).getD response_text
  let head := pyJoinNl ((pySplitNl candidate).take 5)
  let path := findPathHint head
  let content := pyStripNl (stripHeaderLines candidate)
  [⟨path, content⟩]

/-! ## The worker body (`_run_iteration_worker`, process_parallel.py
lines 133–241)

The fragment after the model call: SKIP guard, in-worker sanitizing,
edit extraction, child-source production, the maximum-length guard, and
the success/failure result shapes.  Prompt building, the model call and
the evaluator are the external collaborators; the evaluator is the
`evalFn` parameter.  The blanket `except Exception` boundary turns any
exception into a failure result (`error = str(e)`). -/

/-- The worker's `child_code` value: a string in edit mode, or the list
returned by `parse_full_rewrite` in full-rewrite mode (the code binds
the list itself, so `len(child_code)` is the list length). -/
inductive ChildCode
  | str (s : PyStr)
  | rewriteList (l : List RewriteBlock)
deriving Repr, DecidableEq

/-- Python `len` on the `child_code` value. -/
def pyLen : ChildCode → Nat
  | .str s => s.length
  | .rewriteList l => l.length

/-- The child program the scheduler would insert (fields beyond the code
and metrics are bookkeeping the claims do not touch). -/
structure ChildProgram (μ : Type) where
  code : ChildCode
  metrics : μ
deriving Repr, DecidableEq

/-- `SerializableResult`, restricted to the fields the claims concern:
the success payload and the failure reason. -/
structure SerializableResult (μ : Type) where
  child : Option (ChildProgram μ) := none
  error : Option PyStr := none
  iteration : Nat := 0
deriving Repr, DecidableEq

def modelSkippedMsg : PyStr := "Model skipped".toList

def noValidDiffsMsg : PyStr := "No valid diffs found in response".toList

def noValidCodeMsg : PyStr := "No valid code found in response".toList

/-- `str(e)` for the `TypeError` raised by
`apply_diff(parent.code, llm_response)`: the call site passes two
positional arguments to the three-parameter `apply_diff(code,
search_text, replace_text)` (code_utils.py line 273). -/
def applyDiffTypeErrorMsg : PyStr :=
  "apply_diff() missing 1 required positional argument: 'replace_text'".toList

/-- The f-string of the length guard. -/
def lengthExceededMsg (n maxLen : Nat) : PyStr :=
  "Generated code exceeds maximum length (".toList ++ Nat.toDigits 10 n ++
    " > ".toList ++ Nat.toDigits 10 maxLen ++ ")".toList

/-- `_sanitize_llm_patch`: at the modelled default configuration the
keyword-argument call raises `TypeError` and the legacy fallback
`_extract_raw_patch(raw)` runs; the result is `(patched or "").strip()`. -/
def sanitizeLlmPatch (raw : PyStr) : PyStr := pyStrip (extract_raw_patch raw)

/-- The post-model fragment of `_run_iteration_worker`. -/
def runIterationWorker {μ : Type} (diffBasedEvolution : Bool) (maxCodeLength : Nat)
    (iteration : Nat) (parentCode llmResponse : PyStr)
    (evalFn : ChildCode → μ) : SerializableResult μ :=
  if diffBasedEvolution then
    let raw := pyStrip llmResponse
    if pyStartsWith (pyUpper raw) "SKIP".toList then
      ⟨none, some modelSkippedMsg, iteration⟩
    else
      let sanitized := sanitizeLlmPatch raw
      -- `if sanitized: llm_response = sanitized` (else keep the raw response)
      let llm := if sanitized ≠ [] then sanitized else llmResponse
      let diffBlocks := extract_diffs llm
      if diffBlocks = [] then ⟨none, some noValidDiffsMsg, iteration⟩
      else
        -- `child_code = apply_diff(parent.code, llm_response)` calls the
        -- three-parameter `apply_diff` with two positional arguments;
        -- CPython raises `TypeError` before the body runs, and the
        -- worker's `except Exception` turns it into a failure result.
        ⟨none, some applyDiffTypeErrorMsg, iteration⟩
  else
    let newCode := parse_full_rewrite llmResponse
    if newCode = [] then ⟨none, some noValidCodeMsg, iteration⟩
    else
      let childCode := ChildCode.rewriteList newCode
      if pyLen childCode > maxCodeLength then
        ⟨none, some (lengthExceededMsg (pyLen childCode) maxCodeLength), iteration⟩
      else
        ⟨some ⟨childCode, evalFn childCode⟩, none, iteration⟩

/-! ### Worker theorems -/

/-- Unfolding equation for the edit-mode branch of the worker. -/
theorem runIterationWorker_edit_eq {μ : Type} (maxCodeLength iteration : Nat)
    (parentCode llmResponse : PyStr) (evalFn : ChildCode → μ) :
    runIterationWorker true maxCodeLength iteration parentCode llmResponse evalFn =
      if pyStartsWith (pyUpper (pyStrip llmResponse)) "SKIP".toList then
        ⟨none, some modelSkippedMsg, iteration⟩
      else if extract_diffs (if sanitizeLlmPatch (pyStrip llmResponse) ≠ [] then
          sanitizeLlmPatch (pyStrip llmResponse) else llmResponse) = [] then
        ⟨none, some noValidDiffsMsg, iteration⟩
      else ⟨none, some applyDiffTypeErrorMsg, iteration⟩ := rfl

/-- Unfolding equation for the full-rewrite branch of the worker. -/
theorem runIterationWorker_full_eq {μ : Type} (maxCodeLength iteration : Nat)
    (parentCode llmResponse : PyStr) (evalFn : ChildCode → μ) :
    runIterationWorker false maxCodeLength iteration parentCode llmResponse evalFn =
      (if parse_full_rewrite llmResponse = [] then
        ⟨none, some noValidCodeMsg, iteration⟩
      else if pyLen (ChildCode.rewriteList (parse_full_rewrite llmResponse)) >
          maxCodeLength then
        ⟨none, some (lengthExceededMsg
          (pyLen (ChildCode.rewriteList (parse_full_rewrite llmResponse)))
          maxCodeLength), iteration⟩
      else ⟨some ⟨ChildCode.rewriteList (parse_full_rewrite llmResponse),
        evalFn (ChildCode.rewriteList (parse_full_rewrite llmResponse))⟩, none,
        iteration⟩ : SerializableResult μ) := rfl

theorem worker_msgs_distinct :
    noValidDiffsMsg ≠ modelSkippedMsg ∧
    applyDiffTypeErrorMsg ≠ modelSkippedMsg ∧
    noValidDiffsMsg ≠ applyDiffTypeErrorMsg := by decide

/-- C4 counterexample: the response `"skipped the rest"` is not the
literal `"SKIP"` after stripping, yet the worker returns the
`Model skipped` failure — the code tests `raw.upper().startswith("SKIP")`,
a case-insensitive prefix check, not whole-response equality. -/
theorem model_skip_prefix_counterexample :
    (runIterationWorker (μ := Unit) true 10000 0 "x".toList
        "skipped the rest".toList (fun _ => ())).error = some modelSkippedMsg ∧
    (runIterationWorker (μ := Unit) true 10000 0 "x".toList
        "skipped the rest".toList (fun _ => ())).child = none ∧
    pyStrip "skipped the rest".toList ≠ "SKIP".toList := by
  decide

/-- C4 (amended): in edit mode the worker returns the named
`Model skipped` failure (creating no program) if and only if the model
response, after stripping surrounding whitespace and uppercasing,
*starts with* `"SKIP"`. -/
theorem model_skip_iff_prefix {μ : Type} (maxCodeLength iteration : Nat)
    (parentCode llmResponse : PyStr) (evalFn : ChildCode → μ) :
    ((runIterationWorker true maxCodeLength iteration parentCode llmResponse
        evalFn).error = some modelSkippedMsg ↔
      pyStartsWith (pyUpper (pyStrip llmResponse)) "SKIP".toList = true) ∧
    ((runIterationWorker true maxCodeLength iteration parentCode llmResponse
        evalFn).error = some modelSkippedMsg →
      (runIterationWorker true maxCodeLength iteration parentCode llmResponse
        evalFn).child = none) := by
  rw [runIterationWorker_edit_eq]
  by_cases hskip : pyStartsWith (pyUpper (pyStrip llmResponse)) "SKIP".toList = true
  · rw [if_pos hskip]
    exact ⟨⟨fun _ => hskip, fun _ => rfl⟩, fun _ => rfl⟩
  · rw [if_neg hskip]
    have herr : (if extract_diffs (if sanitizeLlmPatch (pyStrip llmResponse) ≠ []
        then sanitizeLlmPatch (pyStrip llmResponse) else llmResponse) = [] then
          (⟨none, some noValidDiffsMsg, iteration⟩ : SerializableResult μ)
        else ⟨none, some applyDiffTypeErrorMsg, iteration⟩).error ≠
          some modelSkippedMsg := by
      by_cases hextract : extract_diffs (if sanitizeLlmPatch (pyStrip llmResponse)
          ≠ [] then sanitizeLlmPatch (pyStrip llmResponse) else llmResponse) = []
      · rw [if_pos hextract]
        intro h
        exact worker_msgs_distinct.1 (Option.some.inj h)
      · rw [if_neg hextract]
        intro h
        exact worker_msgs_distinct.2.1 (Option.some.inj h)
    exact ⟨⟨fun h => absurd h herr, fun h => absurd h hskip⟩,
      fun h => absurd h herr⟩

/-- C1: whenever sanitize+extract yields at least one structured edit in
edit mode, the worker does *not* apply the edits: the call
`apply_diff(parent.code, llm_response)` passes two positional arguments
to the three-parameter `apply_diff`, so every such task ends in the
converted-`TypeError` failure result with no child program. -/
theorem edit_mode_apply_always_fails {μ : Type} (maxCodeLength iteration : Nat)
    (parentCode llmResponse : PyStr) (evalFn : ChildCode → μ)
    (hskip : ¬ pyStartsWith (pyUpper (pyStrip llmResponse)) "SKIP".toList = true)
    (hextract : ¬ extract_diffs (if sanitizeLlmPatch (pyStrip llmResponse) ≠ []
      then sanitizeLlmPatch (pyStrip llmResponse) else llmResponse) = []) :
    (runIterationWorker true maxCodeLength iteration parentCode llmResponse
        evalFn).error = some applyDiffTypeErrorMsg ∧
    (runIterationWorker true maxCodeLength iteration parentCode llmResponse
        evalFn).child = none := by
  rw [runIterationWorker_edit_eq, if_neg hskip, if_neg hextract]
  exact ⟨rfl, rfl⟩

/-- C1 witness: a plain conflict-style edit (which the sanitizer maps to
the empty string, and the extractor recognises) still ends in the
arity-`TypeError` failure. -/
theorem edit_mode_apply_always_fails_witness :
    (runIterationWorker (μ := Unit) true 10000 7 "a();\nfoo();\nb();".toList
        "<<<<<<< SEARCH\nfoo();\n=======\nbar();\n>>>>>>> REPLACE".toList
        (fun _ => ())).error = some applyDiffTypeErrorMsg ∧
    (runIterationWorker (μ := Unit) true 10000 7 "a();\nfoo();\nb();".toList
        "<<<<<<< SEARCH\nfoo();\n=======\nbar();\n>>>>>>> REPLACE".toList
        (fun _ => ())).child = none :=
  edit_mode_apply_always_fails 10000 7 "a();\nfoo();\nb();".toList
    "<<<<<<< SEARCH\nfoo();\n=======\nbar();\n>>>>>>> REPLACE".toList
    (fun _ => ()) (by decide) (by decide)

/-- C10: when the sanitizer returns an empty string the worker does not
fail at that point — it falls back to extracting structured edits from
the raw model response, and (absent the SKIP guard) the task fails with
the named `No valid diffs found in response` failure exactly when that
extraction yields zero edits. -/
theorem sanitizer_empty_fallback {μ : Type} (maxCodeLength iteration : Nat)
    (parentCode llmResponse : PyStr) (evalFn : ChildCode → μ)
    (hsan : sanitizeLlmPatch (pyStrip llmResponse) = [])
    (hskip : ¬ pyStartsWith (pyUpper (pyStrip llmResponse)) "SKIP".toList = true) :
    ((runIterationWorker true maxCodeLength iteration parentCode llmResponse
        evalFn).error = some noValidDiffsMsg ↔
      extract_diffs llmResponse = []) := by
  rw [runIterationWorker_edit_eq, if_neg hskip]
  have h2 : (if sanitizeLlmPatch (pyStrip llmResponse) ≠ [] then
      sanitizeLlmPatch (pyStrip llmResponse) else llmResponse) = llmResponse := by
    rw [if_neg]
    simp [hsan]
  rw [h2]
  constructor
  · intro h
    by_contra hne
    rw [if_neg hne] at h
    exact worker_msgs_distinct.2.2 (Option.some.inj h).symm
  · intro he
    rw [if_pos he]

/-- C10 witness: a prose-only response — sanitizer empty, zero edits,
and the worker reports exactly the `No valid diffs` failure. -/
theorem sanitizer_empty_fallback_witness :
    ((runIterationWorker (μ := Unit) true 100 3 "p".toList "hello world".toList
        (fun _ => ())).error = some noValidDiffsMsg ↔
      extract_diffs "hello world".toList = []) :=
  sanitizer_empty_fallback 100 3 "p".toList "hello world".toList (fun _ => ())
    (by decide) (by decide)

/-- C5: the worker never produces the success variant with a child whose
`len` exceeds the configured maximum; and in full-rewrite mode, whenever
the produced child value\'s `len` exceeds the maximum, the result is the
named length failure carrying no child program. -/
theorem worker_length_guard {μ : Type} (diffBasedEvolution : Bool)
    (maxCodeLength iteration : Nat) (parentCode llmResponse : PyStr)
    (evalFn : ChildCode → μ) :
    (∀ p, (runIterationWorker diffBasedEvolution maxCodeLength iteration
        parentCode llmResponse evalFn).child = some p →
      pyLen p.code ≤ maxCodeLength ∧
      (runIterationWorker diffBasedEvolution maxCodeLength iteration
        parentCode llmResponse evalFn).error = none) ∧
    (diffBasedEvolution = false →
      pyLen (ChildCode.rewriteList (parse_full_rewrite llmResponse)) >
          maxCodeLength →
      (runIterationWorker diffBasedEvolution maxCodeLength iteration
          parentCode llmResponse evalFn).error =
        some (lengthExceededMsg
          (pyLen (ChildCode.rewriteList (parse_full_rewrite llmResponse)))
          maxCodeLength) ∧
      (runIterationWorker diffBasedEvolution maxCodeLength iteration
          parentCode llmResponse evalFn).child = none) := by
  cases diffBasedEvolution
  case true =>
    have hchild : (runIterationWorker true maxCodeLength iteration parentCode
        llmResponse evalFn).child = none := by
      rw [runIterationWorker_edit_eq]
      by_cases hskip : pyStartsWith (pyUpper (pyStrip llmResponse))
          "SKIP".toList = true
      · rw [if_pos hskip]
      · rw [if_neg hskip]
        by_cases hextract : extract_diffs (if sanitizeLlmPatch (pyStrip
            llmResponse) ≠ [] then sanitizeLlmPatch (pyStrip llmResponse)
            else llmResponse) = []
        · rw [if_pos hextract]
        · rw [if_neg hextract]
    refine ⟨?_, ?_⟩
    · intro p hp
      rw [hchild] at hp
      exact absurd hp (by simp)
    · intro hd
      exact absurd hd (by simp)
  case false =>
    rw [runIterationWorker_full_eq]
    have hne : ¬ parse_full_rewrite llmResponse = [] := by
      simp [parse_full_rewrite]
    rw [if_neg hne]
    by_cases hlen : pyLen (ChildCode.rewriteList (parse_full_rewrite
        llmResponse)) > maxCodeLength
    · rw [if_pos hlen]
      refine ⟨?_, ?_⟩
      · intro p hp
        exact absurd hp (by simp)
      · intro _ _
        exact ⟨rfl, rfl⟩
    · rw [if_neg hlen]
      refine ⟨?_, ?_⟩
      · intro p hp
        refine ⟨?_, rfl⟩
        have hp' : p = ⟨ChildCode.rewriteList (parse_full_rewrite llmResponse),
            evalFn (ChildCode.rewriteList (parse_full_rewrite llmResponse))⟩ :=
          (Option.some.inj hp).symm
        rw [hp']
        simp only []
        omega
      · intro _ hlen2
        exact absurd hlen2 hlen

/-- C5 witness: with `max_code_length = 0` in full-rewrite mode the
guard fires (the bound child value has `len` 1) and no child program is
created. -/
theorem worker_length_guard_witness :
    (runIterationWorker (μ := Unit) false 0 2 "p".toList "x".toList
        (fun _ => ())).error =
      some (lengthExceededMsg
        (pyLen (ChildCode.rewriteList (parse_full_rewrite "x".toList))) 0) ∧
    (runIterationWorker (μ := Unit) false 0 2 "p".toList "x".toList
        (fun _ => ())).child = none :=
  (worker_length_guard false 0 2 "p".toList "x".toList (fun _ => ())).2
    rfl (by decide)

/-! ### Sanitizer validation lemmas

The sanitizer's final gate requires `"@@" in out`.  The pipeline can
only ever *copy* `@@` from the (normalized) input into the assembled
output — retargeted headers, injected headers and coerced context
prefixes contain no `@`, and every hunk-repair branch fires only on a
line that already starts with `@@` — so an input whose normalized text
lacks the substring `@@` always comes out empty. -/

/-- `pyContains` is substring (infix) occurrence. -/
theorem pyContains_iff_isInfix (hay n : PyStr) :
    pyContains hay n = true ↔ n <:+: hay := by
  induction hay with
  | nil =>
      simp only [pyContains, List.isPrefixOf_iff_prefix]
      constructor
      · intro h; exact h.isInfix
      · intro h
        obtain ⟨u, v, huv⟩ := h
        simp only [List.append_eq_nil] at huv
        rw [huv.1.2]
      -- (`.1.2` extracts `n = []`; the empty list prefixes itself)
  | cons c t ih =>
      have hL : pyContains (c :: t) n = (n.isPrefixOf (c :: t) || pyContains t n) := rfl
      rw [hL, Bool.or_eq_true, List.isPrefixOf_iff_prefix, ih, List.infix_cons_iff]

theorem pyContains_false_of_isInfix {a b n : PyStr} (hab : a <:+: b)
    (h : pyContains b n = false) : pyContains a n = false := by
  cases hx : pyContains a n
  · rfl
  · exfalso
    have h2 : pyContains b n = true := (pyContains_iff_isInfix b n).mpr
      (((pyContains_iff_isInfix a n).mp hx).trans hab)
    rw [h2] at h
    exact absurd h (by simp)

theorem pyStartsWith_false_of_no_contains {l n : PyStr}
    (h : pyContains l n = false) : pyStartsWith l n = false := by
  cases hx : pyStartsWith l n
  · rfl
  · exfalso
    have h2 : pyContains l n = true := by
      rw [pyContains_iff_isInfix]
      exact (List.isPrefixOf_iff_prefix.mp hx).isInfix
    rw [h2] at h
    exact absurd h (by simp)

/-- The set of characters the normalisation pass eliminates. -/
def isDirtyChar (c : Char) : Bool :=
  c = '\x0d' || c = '﻿' || c = '​' || c = '‌' || c = '‍' ||
    c = '⁠' || c = ' ' || c = ' ' || c = '−'

theorem replaceCrLf_chars (s : PyStr) : ∀ c ∈ replaceCrLf s, c ∈ s := by
  induction s using replaceCrLf.induct with
  | case1 t ih =>
      intro c hc
      rw [show replaceCrLf ('\x0d' :: '\n' :: t) = '\n' :: replaceCrLf t from rfl] at hc
      rcases List.mem_cons.mp hc with h | h
      · simp [h]
      · simp [List.mem_cons, ih c h]
  | case2 c t hne ih =>
      intro d hd
      rw [replaceCrLf.eq_2 c t hne] at hd
      rcases List.mem_cons.mp hd with h | h
      · simp [h]
      · simp [List.mem_cons, ih d h]
  | case3 =>
      intro c hc
      simp [replaceCrLf] at hc

/-- No carriage return survives `replaceCrLf` followed by the `\\r → \\n`
map (together: `replace("\\r\\n","\\n").replace("\\r","\\n")`). -/
theorem crMap_chars (s : PyStr) :
    ∀ c ∈ s.map (fun c => if c = '\x0d' then '\n' else c), c ≠ '\x0d' := by
  intro c hc
  obtain ⟨a, _, hfa⟩ := List.mem_map.mp hc
  by_cases h1 : a = '\x0d'
  · rw [if_pos h1] at hfa
    rw [← hfa]
    decide
  · rw [if_neg h1] at hfa
    rw [← hfa]
    exact h1

/-- Characters of `_normalize_text`'s output are never in the
eliminated set. -/
theorem normalizeText_chars (s : PyStr) :
    ∀ c ∈ normalizeText s, isDirtyChar c = false := by
  intro c hc
  unfold normalizeText at hc
  by_cases hs : s = []
  · simp [hs] at hc
  · rw [if_neg hs] at hc
    simp only [List.mem_map] at hc
    obtain ⟨c4, ⟨c3, hc3, rfl⟩, rfl⟩ := hc
    have hc3f := List.mem_filter.mp hc3
    have hzw := hc3f.2
    have hc2 : c3 ∈ (replaceCrLf s).map (fun c => if c = '\x0d' then '\n' else c) := by
      have h1 := hc3f.1
      by_cases hh : ((replaceCrLf s).map
          (fun c => if c = '\x0d' then '\n' else c)).head? = some '﻿'
      · rw [if_pos hh] at h1
        exact (List.tail_sublist _).subset h1
      · rwa [if_neg hh] at h1
    have hcr : c3 ≠ '\x0d' := crMap_chars (replaceCrLf s) c3 hc2
    simp only [Bool.not_or, Bool.and_eq_true, Bool.not_eq_true',
      decide_eq_false_iff_not] at hzw
    unfold isDirtyChar
    by_cases hnb1 : c3 = ' ' <;> by_cases hnb2 : c3 = ' ' <;>
      by_cases hum : c3 = '−' <;>
      simp_all

/-! ## C3 supporting development

An input whose normalised text carries no `@@` marker and no `+`/`-`
character cannot survive the sanitizer's "no hunks or changes" gate:
every line reaching the gate is an infix of the normalised text (fence
bodies are slices, `splitlines`/`rstrip` produce slices) and the header
retarget/hunk-repair rewrites all require a `-`, `+` or `@@` prefix to
fire, so the gate's two flags are both false and the result is empty. -/

/-- A line with no hunk marker and no change characters. -/
def cleanLine (l : PyStr) : Prop :=
  pyContains l ("@@".toList) = false ∧ '+' ∉ l ∧ '-' ∉ l

theorem cleanLine_of_infix {a b : PyStr} (hab : a <:+: b) (h : cleanLine b) :
    cleanLine a :=
  ⟨pyContains_false_of_isInfix hab h.1,
   fun hm => h.2.1 (hab.subset hm), fun hm => h.2.2 (hab.subset hm)⟩

theorem cleanLine_cons_space {l : PyStr} (h : cleanLine l) :
    cleanLine (' ' :: l) := by
  refine ⟨?_, ?_, ?_⟩
  · have hstep : pyContains (' ' :: l) ("@@".toList) =
        ((("@@".toList)).isPrefixOf (' ' :: l) || pyContains l ("@@".toList)) := rfl
    have hpre : ((("@@".toList)).isPrefixOf (' ' :: l)) = false := rfl
    rw [hstep, hpre, h.1]
    rfl
  · intro hm
    rcases List.mem_cons.mp hm with h1 | h1
    · exact absurd h1 (by decide)
    · exact h.2.1 h1
  · intro hm
    rcases List.mem_cons.mp hm with h1 | h1
    · exact absurd h1 (by decide)
    · exact h.2.2 h1

theorem map_id_of_fixed {f : Char → Char} {s : PyStr}
    (h : ∀ c ∈ s, f c = c) : s.map f = s := by
  induction s with
  | nil => rfl
  | cons c t ih =>
      simp only [List.map_cons]
      rw [h c (List.mem_cons_self c t),
        ih (fun d hd => h d (List.mem_cons_of_mem c hd))]

theorem replaceCrLf_id (s : PyStr) (h : '\x0d' ∉ s) : replaceCrLf s = s := by
  induction s using replaceCrLf.induct with
  | case1 t ih => exact absurd (List.mem_cons_self _ _) h
  | case2 c t hne ih =>
      rw [replaceCrLf.eq_2 c t hne,
        ih (fun hm => h (List.mem_cons_of_mem c hm))]
  | case3 => rfl

theorem normalizeText_id_of_clean (s : PyStr)
    (h : ∀ c ∈ s, isDirtyChar c = false) : normalizeText s = s := by
  by_cases hs : s = []
  · rw [hs]; rfl
  · have hne : ∀ c ∈ s, ∀ v : Char, isDirtyChar v = true → c ≠ v := by
      intro c hc v hv he
      rw [← he] at hv
      rw [h c hc] at hv
      exact Bool.noConfusion hv
    have h1 : replaceCrLf s = s :=
      replaceCrLf_id s (fun hm => hne _ hm _ (by decide) rfl)
    have h1b : s.map (fun c => if c = '\x0d' then '\n' else c) = s :=
      map_id_of_fixed (fun c hc => if_neg (hne c hc '\x0d' (by decide)))
    have h2 : ¬ s.head? = some '﻿' := by
      intro he
      cases s with
      | nil => exact hs rfl
      | cons c t =>
          rw [List.head?_cons] at he
          exact hne c (List.mem_cons_self c t) '﻿' (by decide)
            (Option.some.inj he)
    have h3 : s.filter (fun c =>
        !(c = '​' || c = '‌' || c = '‍' || c = '⁠' ||
          c = '﻿')) = s := by
      rw [List.filter_eq_self]
      intro c hc
      simp only [Bool.not_eq_true', Bool.or_eq_false_iff,
        decide_eq_false_iff_not]
      exact ⟨⟨⟨⟨hne c hc _ (by decide), hne c hc _ (by decide)⟩,
        hne c hc _ (by decide)⟩, hne c hc _ (by decide)⟩,
        hne c hc _ (by decide)⟩
    have h4 : s.map (fun c =>
        if c = ' ' || c = ' ' then ' ' else c) = s := by
      refine map_id_of_fixed (fun c hc => ?_)
      rw [if_neg]
      simp only [Bool.or_eq_true, decide_eq_true_eq, not_or]
      exact ⟨hne c hc _ (by decide), hne c hc _ (by decide)⟩
    have h5 : s.map (fun c => if c = '−' then '-' else c) = s :=
      map_id_of_fixed (fun c hc => if_neg (hne c hc '−' (by decide)))
    unfold normalizeText
    rw [if_neg hs]
    simp only [h1, h1b, h2, if_false, h3, h4, h5, ite_false]

theorem splitAtTriple_eq : ∀ (x : PyStr) (p : PyStr × PyStr),
    splitAtTriple x = some p → x = p.1 ++ '`' :: '`' :: '`' :: p.2 := by
  intro x
  induction x with
  | nil => intro p h; simp [splitAtTriple] at h
  | cons c t ih =>
      intro p h
      simp only [splitAtTriple] at h
      by_cases hc : c = '`' ∧ ("``".toList).isPrefixOf t
      · rw [if_pos hc] at h
        obtain rfl : p = (([] : PyStr), t.drop 2) := (Option.some.inj h).symm
        obtain ⟨u, hu⟩ := List.isPrefixOf_iff_prefix.mp hc.2
        rw [hc.1, ← hu]
        rfl
      · rw [if_neg hc, Option.map_eq_some'] at h
        obtain ⟨q, hq, hpq⟩ := h
        rw [← hpq]
        have := ih q hq
        simp only []
        rw [List.cons_append, ← this]

theorem fenceBlocksAux_isInfix : ∀ (fuel : Nat) (s : PyStr) (p : PyStr × PyStr),
    p ∈ fenceBlocksAux fuel s → p.2 <:+: s := by
  intro fuel
  induction fuel with
  | zero => intro s p h; simp [fenceBlocksAux] at h
  | succ n ih =>
      intro s p h
      cases s with
      | nil => simp [fenceBlocksAux] at h
      | cons c t =>
          simp only [fenceBlocksAux] at h
          by_cases hc : c = '`' ∧ ("``".toList).isPrefixOf t
          · rw [if_pos hc] at h
            rcases hsp : splitAtTriple
                (((t.drop 2).drop ((t.drop 2).takeWhile isWordChar).length).dropWhile
                  isPyWs) with _ | q
            · rw [hsp] at h
              simp at h
            · rw [hsp] at h
              have hdec := splitAtTriple_eq _ _ hsp
              have hsuf : (((t.drop 2).drop
                  ((t.drop 2).takeWhile isWordChar).length).dropWhile isPyWs) <:+
                    (c :: t) := by
                refine (List.dropWhile_suffix _).trans ?_
                refine (List.drop_suffix _ _).trans ?_
                exact ((List.drop_suffix _ _).trans (List.suffix_cons c t))
              rcases List.mem_cons.mp h with rfl | hmem
              · have hbody : q.1 <+:
                    (((t.drop 2).drop
                      ((t.drop 2).takeWhile isWordChar).length).dropWhile isPyWs) :=
                  ⟨'`' :: '`' :: '`' :: q.2, hdec.symm⟩
                exact hbody.isInfix.trans hsuf.isInfix
              · have hafter : q.2 <:+
                    (((t.drop 2).drop
                      ((t.drop 2).takeWhile isWordChar).length).dropWhile isPyWs) := by
                  refine ⟨q.1 ++ ['`', '`', '`'], ?_⟩
                  rw [hdec]
                  simp
                exact (ih _ p hmem).trans (hafter.isInfix.trans hsuf.isInfix)
          · rw [if_neg hc] at h
            exact List.infix_cons_iff.mpr (Or.inr (ih t p h))

theorem firstWithScore_mem : ∀ (l : List (Nat × PyStr)) (m : Nat) (b : PyStr),
    firstWithScore l m = some b → ∃ sc, (sc, b) ∈ l := by
  intro l
  induction l with
  | nil => intro m b h; simp [firstWithScore] at h
  | cons p rest ih =>
      intro m b h
      obtain ⟨sc, body⟩ := p
      simp only [firstWithScore] at h
      by_cases hsc : sc = m
      · rw [if_pos hsc] at h
        refine ⟨sc, ?_⟩
        rw [show body = b from Option.some.inj h] at *
        exact List.mem_cons_self _ _
      · rw [if_neg hsc] at h
        obtain ⟨sc2, hm⟩ := ih m b h
        exact ⟨sc2, List.mem_cons_of_mem _ hm⟩

theorem chooseBestBlock_eq_nil {s : PyStr} (h : fenceBlocks s = []) :
    chooseBestBlock s = s := by
  unfold chooseBestBlock
  rw [h]

theorem chooseBestBlock_eq_cons {s : PyStr} {q : PyStr × PyStr}
    {qs : List (PyStr × PyStr)} (h : fenceBlocks s = q :: qs) :
    chooseBestBlock s =
      (firstWithScore ((q :: qs).map (fun p => (blockScore p.1 p.2, p.2)))
        (((q :: qs).map (fun p => (blockScore p.1 p.2, p.2))).foldl
          (fun acc p => max acc p.1) 0)).getD s := by
  unfold chooseBestBlock
  rw [h]

theorem firstWithScore_getD_isInfix {s : PyStr} {L : List (Nat × PyStr)}
    {m : Nat} (hL : ∀ p ∈ L, p.2 <:+: s) :
    (firstWithScore L m).getD s <:+: s := by
  rcases hfw : firstWithScore L m with _ | b
  · simp
  · simp only [Option.getD_some]
    obtain ⟨sc, hmem⟩ := firstWithScore_mem _ _ _ hfw
    exact hL _ hmem

theorem chooseBestBlock_isInfix (s : PyStr) : chooseBestBlock s <:+: s := by
  rcases hfb : fenceBlocks s with _ | ⟨q, qs⟩
  · rw [chooseBestBlock_eq_nil hfb]
  · rw [chooseBestBlock_eq_cons hfb]
    refine firstWithScore_getD_isInfix ?_
    intro p hp
    have hp2 : p ∈ (q :: qs).map (fun r => (blockScore r.1 r.2, r.2)) := hp
    obtain ⟨pr, hpr, hpe⟩ := List.mem_map.mp hp2
    have hb : pr.2 = p.2 := congrArg Prod.snd hpe
    rw [← hb]
    have hin : pr ∈ fenceBlocks s := by rw [hfb]; exact hpr
    exact fenceBlocksAux_isInfix s.length s pr hin

theorem pySplitNl_parts : ∀ s : PyStr,
    ∃ h t2, pySplitNl s = h :: t2 ∧ h <+: s ∧ ∀ l ∈ t2, l <:+: s := by
  intro s
  induction s with
  | nil => exact ⟨[], [], rfl, List.nil_prefix, by simp⟩
  | cons c t ih =>
      obtain ⟨h, t2, hsp, hpre, htl⟩ := ih
      by_cases hc : c = '\n'
      · refine ⟨[], h :: t2, ?_, List.nil_prefix, ?_⟩
        · simp only [pySplitNl, hsp]
          rw [if_pos hc]
        · intro l hl
          rcases List.mem_cons.mp hl with rfl | hl
          · exact List.infix_cons_iff.mpr (Or.inr hpre.isInfix)
          · exact List.infix_cons_iff.mpr (Or.inr (htl l hl))
      · refine ⟨c :: h, t2, ?_, ?_, ?_⟩
        · simp only [pySplitNl, hsp]
          rw [if_neg hc]
        · obtain ⟨u, hu⟩ := hpre
          exact ⟨u, by rw [← hu]; rfl⟩
        · intro l hl
          exact List.infix_cons_iff.mpr (Or.inr (htl l hl))

theorem pySplitNl_isInfix (s : PyStr) : ∀ l ∈ pySplitNl s, l <:+: s := by
  obtain ⟨h, t2, hsp, hpre, htl⟩ := pySplitNl_parts s
  intro l hl
  rw [hsp] at hl
  rcases List.mem_cons.mp hl with rfl | hl
  · exact hpre.isInfix
  · exact htl l hl

theorem pyRStrip_isPrefix (l : PyStr) : pyRStrip l <+: l := by
  unfold pyRStrip
  have h := List.dropWhile_suffix (l := l.reverse) (p := isPyWs)
  have h2 := List.reverse_prefix.mpr h
  rwa [List.reverse_reverse] at h2

theorem matchOldHeader_none {l : PyStr} (h : '-' ∉ l) :
    matchOldHeader l = none := by
  unfold matchOldHeader
  rw [if_neg]
  intro hpre
  exact h ((List.isPrefixOf_iff_prefix.mp hpre).subset (by decide))

theorem matchNewHeader_none {l : PyStr} (h : '+' ∉ l) :
    matchNewHeader l = none := by
  unfold matchNewHeader
  rw [if_neg]
  intro hpre
  exact h ((List.isPrefixOf_iff_prefix.mp hpre).subset (by decide))

theorem matchFixHunk_none {l : PyStr} (h : pyContains l ("@@".toList) = false) :
    matchFixHunk l = none := by
  have hb : (("@@".toList).isPrefixOf l) = false :=
    pyStartsWith_false_of_no_contains h
  unfold matchFixHunk
  rw [if_neg (by simp only [hb]; decide)]

theorem isValidHunk_false {l : PyStr} (h : pyContains l ("@@".toList) = false) :
    isValidHunk l = false := by
  have hb : (("@@".toList).isPrefixOf l) = false :=
    pyStartsWith_false_of_no_contains h
  unfold isValidHunk
  rw [if_neg (by simp only [hb]; decide)]

theorem fixLine_id {l : PyStr} (h : cleanLine l) : fixLine l = l := by
  unfold fixLine
  rw [matchOldHeader_none h.2.2, matchNewHeader_none h.2.1,
    matchFixHunk_none h.1]

theorem filterPermissive_mem {lines : List PyStr} {m : PyStr}
    (hm : m ∈ filterPermissive lines) : ∃ l ∈ lines, m = l ∨ m = ' ' :: l := by
  unfold filterPermissive at hm
  obtain ⟨l, hl, hf⟩ := List.mem_filterMap.mp hm
  refine ⟨l, hl, ?_⟩
  split_ifs at hf
  · exact Or.inl (Option.some.inj hf).symm
  · exact Or.inr (Option.some.inj hf).symm
  · exact Or.inl (Option.some.inj hf).symm

theorem pyStartsWith_single_false {l : PyStr} {c : Char} (h : c ∉ l) :
    pyStartsWith l [c] = false := by
  cases l with
  | nil => rfl
  | cons a t =>
      by_cases hca : c = a
      · exact absurd (hca ▸ List.mem_cons_self a t) h
      · show ([c].isPrefixOf (a :: t)) = false
        simp [List.isPrefixOf, hca]

theorem cleanFlags {ls : List PyStr} (h : ∀ l ∈ ls, cleanLine l) :
    (ls.any (fun ln =>
      pyStartsWith ln ("@@".toList) || isValidHunk ln)) = false ∧
    (ls.any (fun ln =>
      pyStartsWith ln ("+".toList) || pyStartsWith ln ("-".toList))) = false := by
  constructor
  · rw [List.any_eq_false]
    intro l hl
    have hc := h l hl
    have h1 : pyStartsWith l ['@', '@'] = false :=
      pyStartsWith_false_of_no_contains hc.1
    have h2 : isValidHunk l = false := isValidHunk_false hc.1
    simp [h1, h2]
  · rw [List.any_eq_false]
    intro l hl
    have hc := h l hl
    have h3 : pyStartsWith l ['+'] = false := pyStartsWith_single_false hc.2.1
    have h4 : pyStartsWith l ['-'] = false := pyStartsWith_single_false hc.2.2
    simp [h3, h4]


theorem lines0_clean (text : PyStr) (h : cleanLine (normalizeText text)) :
    ∀ l ∈ (pySplitNl (normalizeText (chooseBestBlock (normalizeText text)))).map
      pyRStrip, cleanLine l := by
  have hid : normalizeText (chooseBestBlock (normalizeText text)) =
      chooseBestBlock (normalizeText text) :=
    normalizeText_id_of_clean _ (fun c hc =>
      normalizeText_chars text c ((chooseBestBlock_isInfix _).subset hc))
  rw [hid]
  intro l hl
  obtain ⟨l0, hl0, rfl⟩ := List.mem_map.mp hl
  exact cleanLine_of_infix
    (((pyRStrip_isPrefix l0).isInfix.trans (pySplitNl_isInfix _ l0 hl0)).trans
      (chooseBestBlock_isInfix _)) h

theorem ite_clean {L : List PyStr} {c : Prop} [Decidable c] {n : Nat}
    (h : ∀ l ∈ L, cleanLine l) :
    ∀ l ∈ (if c then L.take n else L), cleanLine l := by
  split
  · intro l hl
    exact h l (List.take_subset n L hl)
  · exact h

theorem stages_clean {L : List PyStr} (hL : ∀ l ∈ L, cleanLine l) :
    ∀ m ∈ filterPermissive ((stripGitHeaders L).map fixLine), cleanLine m := by
  intro m hm
  obtain ⟨l, hl, hml⟩ := filterPermissive_mem hm
  obtain ⟨l2, hl2, hle⟩ := List.mem_map.mp hl
  have hcl2 : cleanLine l2 := hL l2 (List.mem_filter.mp hl2).1
  have hcll : cleanLine l := by rw [← hle, fixLine_id hcl2]; exact hcl2
  rcases hml with rfl | rfl
  · exact hcll
  · exact cleanLine_cons_space hcll

theorem extract_raw_patch_empty_of_no_marker_no_change (text : PyStr)
    (h1 : pyContains (normalizeText text) ("@@".toList) = false)
    (h2 : '+' ∉ normalizeText text) (h3 : '-' ∉ normalizeText text) :
    extract_raw_patch text = [] := by
  have hcl : cleanLine (normalizeText text) := ⟨h1, h2, h3⟩
  by_cases hstrip : pyStrip text = []
  · unfold extract_raw_patch
    rw [if_pos hstrip]
  · have hkey : ∀ m ∈ filterPermissive
        ((stripGitHeaders (if ((pySplitNl (normalizeText (chooseBestBlock
            (normalizeText text)))).map pyRStrip).length > MAX_LINES then
          ((pySplitNl (normalizeText (chooseBestBlock (normalizeText text)))).map
            pyRStrip).take MAX_LINES
        else (pySplitNl (normalizeText (chooseBestBlock (normalizeText text)))).map
          pyRStrip)).map fixLine),
        cleanLine m := stages_clean (ite_clean (lines0_clean text hcl))
    obtain ⟨hfA, hfB⟩ := cleanFlags hkey
    unfold extract_raw_patch
    rw [if_neg hstrip]
    conv_lhs => zeta
    rw [hfA, hfB]
    simp only [Bool.not_false, Bool.and_self, eq_self_iff_true, if_true, ite_self]


/-- C3: the spec says `extract_raw_patch` returns the empty string unless
its result contains at least one hunk header and at least one added or
removed line.  The code violates the added/removed-line half: on the input
`"@@ -1 +1 @@"` — a lone hunk header with no change lines — the final
`any(ln.startswith(("+", "-")))` validation is satisfied by the file
headers the sanitizer itself injected, and the nonempty patch
`"--- a/api.py\n+++ b/api.py\n@@ -1 +1 @@\n"` is returned even though its
only `+`/`-`-initial lines are those two injected headers: it contains no
added or removed line.  (The claim's universal half is genuine:
`extract_raw_patch_empty_of_no_marker_no_change` shows an input whose
normalised text has no `@@` marker and no `+`/`-` character at all always
comes out empty.) -/
theorem sanitizer_returns_changeless_nonempty_patch :
    extract_raw_patch ("@@ -1 +1 @@".toList) =
      ("--- a/api.py\n+++ b/api.py\n@@ -1 +1 @@\n".toList) ∧
    extract_raw_patch ("@@ -1 +1 @@".toList) ≠ [] ∧
    (pySplitNl (extract_raw_patch ("@@ -1 +1 @@".toList))).filter
        (fun l => pyStartsWith l ("+".toList) || pyStartsWith l ("-".toList)) =
      [("--- a/api.py".toList), ("+++ b/api.py".toList)] :=
  ⟨by decide, by decide, by decide⟩

end OpenEvolve
